import Mathlib

/-!
# Verification of the flare-ai-rag retrieval-fusion and chunking pipeline

This file gives a shallow embedding, in Lean, of the core algorithms of the
`flare_ai_rag` Python package and proves (or refutes) the specification
claims about them:

* `src/flare_ai_rag/data_expansion/integration.py` — `CombinedRetriever`
  (budget split, merge/sort, truncation, error degradation, ratio clamping);
* `src/flare_ai_rag/ai/gemini.py` — `GeminiEmbedding.embed_content`
  (retry/backoff policy);
* `src/flare_ai_rag/data_expansion/processors/chunker.py` — `SemanticChunker`
  (section extraction, paragraph/sentence splitting, overlap, chunk assembly).

Python text is modelled as `List Char` (Python `len` is the number of code
points, i.e. `List.length`), Python `float` as `ℚ`, Python `int` as `ℤ` or
`ℕ` as appropriate.  External collaborators (the two retrieval sources, the
embedding provider, the random jitter) are parameters of the embedded
functions; exceptions are modelled with `Except`.
-/

/-! ## Part 1: `CombinedRetriever` (integration.py) -/

/-- One search result.  The Python code passes dict-shaped results around;
the fields below are exactly the keys `semantic_search` reads or writes
(`text`, `score`, `source`, `url`, `title`, `file_name`).  Scores are the
Python floats, modelled as `ℚ`. -/
structure SearchResult where
  text : String
  score : ℚ
  source : String
  url : String
  title : String
  fileName : String
deriving Repr, DecidableEq

/-- Python `int(x)` (truncation toward zero) on a rational. -/
def pyTrunc (q : ℚ) : ℤ := if 0 ≤ q then ⌊q⌋ else ⌈q⌉

/-- Python `round(x)` (banker's rounding: round half to even), used only to
formalise the spec's `round(top_k × ratio)` wording. -/
def pyRound (q : ℚ) : ℤ :=
  if q - ⌊q⌋ < 1/2 then ⌊q⌋
  else if 1/2 < q - ⌊q⌋ then ⌊q⌋ + 1
  else if Even ⌊q⌋ then ⌊q⌋ else ⌊q⌋ + 1

/-- `CombinedRetriever.__init__`: `self.ratio = max(0.0, min(1.0, ratio))`. -/
def clampRatio (ratio : ℚ) : ℚ := max 0 (min 1 ratio)

/-- The state of a `CombinedRetriever` (the fields `semantic_search` uses:
`max_results` and the clamped `ratio`). -/
structure CombinedRetriever where
  maxResults : ℕ
  ratio : ℚ
deriving Repr, DecidableEq

/-- `CombinedRetriever.__init__` with arguments `max_results` and `ratio`:
stores `max_results` unchanged and `ratio` clamped into `[0, 1]`. -/
def mkCombinedRetriever (maxResults : ℕ) (ratio : ℚ) : CombinedRetriever :=
  { maxResults := maxResults, ratio := clampRatio ratio }

/-- `expanded_k = max(1, int(top_k * self.ratio))` (integration.py line 62). -/
def expandedK (topK : ℤ) (ratio : ℚ) : ℤ := max 1 (pyTrunc (topK * ratio))

/-- `original_k = max(1, top_k - expanded_k)` (integration.py line 63). -/
def originalK (topK : ℤ) (ratio : ℚ) : ℤ := max 1 (topK - expandedK topK ratio)

/-- `result["source"] = "original"` on each result of the original
retriever (integration.py lines 85-88). -/
def tagOriginal (r : SearchResult) : SearchResult := { r with source := "original" }

/-- The reformatting of one expanded-dataset result (integration.py lines
91-101): same keys, `source` set to `"expanded"`. -/
def formatExpanded (r : SearchResult) : SearchResult :=
  { text := r.text, score := r.score, source := "expanded",
    url := r.url, title := r.title, fileName := r.fileName }

/-- Insert a result into a list already sorted by score (descending),
after every element of score `≥` its own.  Auxiliary for
`sortByScoreDesc`. -/
def insertDesc (r : SearchResult) : List SearchResult → List SearchResult
  | [] => [r]
  | x :: xs => if x.score < r.score then r :: x :: xs else x :: insertDesc r xs

/-- `combined_results.sort(key=lambda x: x.get("score", 0.0), reverse=True)`
(integration.py line 104).  Python's `list.sort` is a *stable* sort; it is
modelled by stable insertion sort with the same comparator (equal scores
keep their original relative order). -/
def sortByScoreDesc (l : List SearchResult) : List SearchResult :=
  l.foldl (fun acc r => insertDesc r acc) []

/-- The list `combined_results` right before the sort: original results
(tagged `"original"`) followed by reformatted expanded results
(integration.py lines 82-101).  A source that raised is treated as an
empty result list (the `except` branches, lines 69-71 and 77-79). -/
def combinedResults (rt : CombinedRetriever)
    (origSearch : ℤ → Except String (List SearchResult))
    (expSearch : ℤ → Except String (List SearchResult))
    (topK : ℤ) : List SearchResult :=
  let originalResults := match origSearch (originalK topK rt.ratio) with
    | .ok l => l
    | .error _ => []
  let expandedResults := match expSearch (expandedK topK rt.ratio) with
    | .ok l => l
    | .error _ => []
  originalResults.map tagOriginal ++ expandedResults.map formatExpanded

/-- `CombinedRetriever.semantic_search(query, top_k)`.  The two collaborator
calls `self.original_retriever.semantic_search(query, top_k=original_k)` and
`self.expansion_service.search(query, limit=expanded_k)` are modelled by the
oracle functions `origSearch` and `expSearch` (the query string is fixed, so
it is absorbed into the oracles); an oracle returning `.error` models the
call raising an exception.  Returns
`combined_results[:self.max_results]` after the stable descending sort. -/
def semanticSearch (rt : CombinedRetriever)
    (origSearch : ℤ → Except String (List SearchResult))
    (expSearch : ℤ → Except String (List SearchResult))
    (topK : ℤ) : List SearchResult :=
  (sortByScoreDesc (combinedResults rt origSearch expSearch topK)).take rt.maxResults

/-- `semantic_search` together with the retriever state after the call.
The method body assigns to no attribute of `self`, so the post-state is
the pre-state. -/
def semanticSearchWithState (rt : CombinedRetriever)
    (origSearch expSearch : ℤ → Except String (List SearchResult))
    (topK : ℤ) : List SearchResult × CombinedRetriever :=
  (semanticSearch rt origSearch expSearch topK, rt)

/-- The per-source budgets `semantic_search` passes to the two collaborator
calls: the original retriever is always called with `original_k` and the
expansion service with `expanded_k` (integration.py lines 67 and 75 — both
calls are unconditional). -/
def issuedQueries (rt : CombinedRetriever) (topK : ℤ) : List (String × ℤ) :=
  [("original", originalK topK rt.ratio), ("expanded", expandedK topK rt.ratio)]

/-- Concrete original-retriever oracle for the fusion-cap counterexample:
returns one result (score 9) when asked for a budget of 1, as a well-behaved
retriever may. -/
def origSearchEx3 : ℤ → Except String (List SearchResult) := fun k =>
  .ok (if k = 1 then [⟨"o1", 9, "", "", "", ""⟩] else [])

/-- Concrete expansion-service oracle for the fusion-cap counterexample:
returns five results when asked for a budget of 5. -/
def expSearchEx3 : ℤ → Except String (List SearchResult) := fun k =>
  .ok (if k = 5 then
    [⟨"e1", 8, "", "", "", ""⟩, ⟨"e2", 7, "", "", "", ""⟩, ⟨"e3", 6, "", "", "", ""⟩,
     ⟨"e4", 5, "", "", "", ""⟩, ⟨"e5", 4, "", "", "", ""⟩] else [])

/-- An always-raising source. -/
def searchRaises : ℤ → Except String (List SearchResult) := fun _ => .error "boom"

/-- A source that returns one result with score 1. -/
def expSearchOne : ℤ → Except String (List SearchResult) := fun _ =>
  .ok [⟨"e", 1, "", "", "", ""⟩]

/-! ## Part 2: `GeminiEmbedding.embed_content` (gemini.py) -/

/-- Outcome of one provider call
`self.client.models.embed_content(model=model_name, contents=final_content)`:
it returns an embedding vector, raises
`genai_errors.ResourceExhaustedError` (a rate-limit signal), or raises any
other exception. -/
inductive EmbedOutcome where
  | success (v : List ℚ)
  | rateLimit (msg : String)
  | otherError (msg : String)
deriving Repr, DecidableEq

/-- How an `embed_content` call fails. -/
inductive EmbedError where
  /-- The re-raised `ResourceExhaustedError` after exhausting retries
  (gemini.py line 302). -/
  | rateLimit (msg : String)
  /-- A re-raised non-rate-limit exception (gemini.py line 306). -/
  | other (msg : String)
  /-- `ValueError("No content provided for embedding")` (line 271). -/
  | noContent
  /-- The final `raise Exception(...)` after the loop (line 308), reachable
  only when the loop body never runs (`max_retries = 0`). -/
  | exhausted (maxRetries : ℕ)
deriving Repr, DecidableEq

/-- Observable behaviour of one `embed_content` call: its result, how many
provider calls it made, and the sequence of `time.sleep` durations. -/
structure EmbedRun where
  result : Except EmbedError (List ℚ)
  calls : ℕ
  sleeps : List ℚ
deriving Repr

/-- The retry loop of `embed_content` (gemini.py lines 278-308), from a
given `attempt` counter and current `delay`.  The provider is an oracle
giving the outcome of the call made on each attempt number; the
`random.uniform(0, 0.1 * delay)` draw on each attempt is the oracle
`jitter` (its range is a hypothesis of the theorems).  On a rate-limit
outcome with `attempt < max_retries - 1` the code sleeps
`delay + jitter`, doubles `delay`, increments `attempt` and retries;
otherwise it re-raises. -/
def embedLoop (provider : ℕ → EmbedOutcome) (jitter : ℕ → ℚ)
    (maxRetries : ℕ) (attempt : ℕ) (delay : ℚ) : EmbedRun :=
  if attempt < maxRetries then
    match provider attempt with
    | .success v => ⟨.ok v, 1, []⟩
    | .rateLimit m =>
      if attempt < maxRetries - 1 then
        let rest := embedLoop provider jitter maxRetries (attempt + 1) (delay * 2)
        ⟨rest.result, rest.calls + 1, (delay + jitter attempt) :: rest.sleeps⟩
      else ⟨.error (.rateLimit m), 1, []⟩
    | .otherError m => ⟨.error (.other m), 1, []⟩
  else ⟨.error (.exhausted maxRetries), 0, []⟩
termination_by maxRetries - attempt
decreasing_by omega

/-- Resolution of the two parameter styles (gemini.py lines 259-267):
`final_content = contents`; if that is falsy and `content` is given, use
`content`; then prepend `title` (with a blank line) unless the content
already starts with it. -/
def resolveContent (contents : String) (content : Option String)
    (title : Option String) : String :=
  let fc := if contents = "" then
      (match content with | some c => c | none => contents)
    else contents
  match title with
  | none => fc
  | some t => if fc = "" then fc else if fc.startsWith t then fc else t ++ "\n\n" ++ fc

/-- `model_name` extraction (gemini.py lines 273-276): strip a leading
`"models/"` by splitting on `"/"` and taking index 1. -/
def resolveModelName (embeddingModel : String) : String :=
  if embeddingModel.startsWith "models/" then
    (embeddingModel.splitOn "/").getD 1 ""
  else embeddingModel

/-- Default `max_retries` of `embed_content`. -/
def maxRetriesDefault : ℕ := 5

/-- Default `initial_delay` of `embed_content` (1.0 second). -/
def initialDelayDefault : ℚ := 1

/-- `GeminiEmbedding.embed_content`: resolve the content (raising
`ValueError` when empty), then run the retry loop with `attempt = 0` and
`delay = initial_delay`. -/
def embedContent (provider : ℕ → EmbedOutcome) (jitter : ℕ → ℚ)
    (contents : String) (content : Option String) (title : Option String)
    (maxRetries : ℕ) (initialDelay : ℚ) : EmbedRun :=
  if resolveContent contents content title = "" then ⟨.error .noContent, 0, []⟩
  else embedLoop provider jitter maxRetries 0 initialDelay

/-! ## Part 3: `SemanticChunker` (chunker.py)

Python strings are modelled as `List Char`; Python `len` is `List.length`
(the number of code points).  The regular expressions used by the chunker
(`\n\s*\n` for paragraph breaks, `(?<=[.!?])\s+` for sentence breaks and
the heading pattern) are implemented as scanners with Python `re`
leftmost/greedy/lazy match semantics; `\s` is modelled by the ASCII
whitespace characters (space, tab, newline, carriage return, vertical tab,
form feed). -/

/-- Python whitespace (the ASCII characters matched by `\s` and stripped
by `str.strip`). -/
def pyIsSpace (c : Char) : Bool :=
  c = ' ' ∨ c = '\t' ∨ c = '\n' ∨ c = '\r' ∨ c = '\x0b' ∨ c = '\x0c'

/-- Python `str.strip()`: drop whitespace from both ends. -/
def pyStrip (l : List Char) : List Char :=
  ((l.dropWhile pyIsSpace).reverse.dropWhile pyIsSpace).reverse

/-- Auxiliary scanner for `pySplitWs`: `cur` holds the current token,
reversed. -/
def pySplitWsAux (cur : List Char) : List Char → List (List Char)
  | [] => if cur = [] then [] else [cur.reverse]
  | c :: rest =>
    if pyIsSpace c then
      if cur = [] then pySplitWsAux [] rest
      else cur.reverse :: pySplitWsAux [] rest
    else pySplitWsAux (c :: cur) rest

/-- Python `str.split()` with no argument: the maximal runs of
non-whitespace characters (used by the overlap carry-forward, and the
notion of "token" in the coverage claims). -/
def pySplitWs (l : List Char) : List (List Char) := pySplitWsAux [] l

/-- The index of the last '\n' in a list, if any. -/
def lastIdxOfNl : List Char → Option ℕ
  | [] => none
  | c :: rest =>
    match lastIdxOfNl rest with
    | some k => some (k + 1)
    | none => if c = '\n' then some 0 else none

/-- The index of the last character that is *not* '\n', if any. -/
def lastIdxNotNl : List Char → Option ℕ
  | [] => none
  | c :: rest =>
    match lastIdxNotNl rest with
    | some k => some (k + 1)
    | none => if c = '\n' then none else some 0

/-- Scanner for `re.split(r"\n\s*\n", text)`: a separator match starts at a
'\n' and extends through the following whitespace up to the *last* '\n' of
that whitespace run (the greedy `\s*` backtracks until a final '\n'
matches); scanning resumes after the match. -/
def paraScan (acc : List Char) (cs : List Char) : List (List Char) :=
  match cs with
  | [] => [acc.reverse]
  | c :: rest =>
    if c = '\n' then
      match lastIdxOfNl (rest.takeWhile pyIsSpace) with
      | some k => acc.reverse :: paraScan [] (rest.drop (k + 1))
      | none => paraScan (c :: acc) rest
    else paraScan (c :: acc) rest
termination_by cs.length
decreasing_by
  · simp
    omega
  · simp
  · simp

/-- `re.split(r"\n\s*\n", text)` (blank-line paragraph split). -/
def splitParagraphs (cs : List Char) : List (List Char) := paraScan [] cs

/-- The lookbehind class `[.!?]` of the sentence pattern. -/
def isSentEnd (c : Char) : Bool := c = '.' ∨ c = '!' ∨ c = '?'

/-- Scanner for `re.split(r"(?<=[.!?])\s+", text)`: a separator match is a
maximal whitespace run immediately preceded by '.', '!' or '?'.  `prev` is
the previous character (the lookbehind); after a separator the lookbehind
is whitespace, which is not in `[.!?]`, so it is reset to `none`. -/
def sentScan (acc : List Char) (prev : Option Char) (cs : List Char) :
    List (List Char) :=
  match cs with
  | [] => [acc.reverse]
  | c :: rest =>
    if prev.elim false isSentEnd && pyIsSpace c then
      acc.reverse :: sentScan [] none (rest.dropWhile pyIsSpace)
    else sentScan (c :: acc) (some c) rest
termination_by cs.length
decreasing_by
  · have := (List.dropWhile_sublist (l := rest) pyIsSpace).length_le
    simp
    omega
  · simp

/-- `re.split(r"(?<=[.!?])\s+", text)` (sentence split). -/
def sentSplit (cs : List Char) : List (List Char) := sentScan [] none cs

/-- The sentence-accumulation loop of `_split_with_overlap` (chunker.py
lines 247-279): `chunks` are the finished chunks, `cur` the chunk being
built.  When a sentence would overflow `chunk_size`, the current chunk is
emitted and the next chunk starts with the sentence, prefixed — when
`overlap > 0` and the previous chunk was non-empty — by the last
`min(len(words), overlap // 5)` words of the previous chunk joined and
separated by single spaces. -/
def swoGo (chunkSize overlap : ℕ) (chunks : List (List Char)) (cur : List Char) :
    List (List Char) → List (List Char)
  | [] => if cur = [] then chunks else chunks ++ [cur]
  | s :: rest =>
    if chunkSize < cur.length + s.length then
      let chunksNew := if cur = [] then chunks else chunks ++ [cur]
      let curNew :=
        if 0 < overlap ∧ cur ≠ [] then
          let words := pySplitWs cur
          let ow := min words.length (overlap / 5)
          if 0 < ow then
            (List.intercalate [' '] (words.drop (words.length - ow))) ++ ' ' :: s
          else s
        else s
      swoGo chunkSize overlap chunksNew curNew rest
    else
      swoGo chunkSize overlap chunks (if cur = [] then s else cur ++ ' ' :: s) rest

/-- `SemanticChunker._split_with_overlap(text, chunk_size, overlap)`
(chunker.py lines 227-281): texts that fit are returned whole; otherwise
the text is split into sentences which are packed greedily. -/
def splitWithOverlap (text : List Char) (chunkSize overlap : ℕ) : List (List Char) :=
  if text.length ≤ chunkSize then [text]
  else swoGo chunkSize overlap [] [] (sentSplit text)

/-- The paragraph-accumulation loop of `_split_long_section` (chunker.py
lines 188-220); an oversized paragraph is itself split by
`_split_with_overlap` and the accumulator resets to empty. -/
def slsGo (chunkSize overlap : ℕ) (subsections : List (List Char)) (cur : List Char) :
    List (List Char) → List (List Char)
  | [] => if cur = [] then subsections else subsections ++ [cur]
  | p :: rest =>
    if chunkSize < cur.length + p.length then
      let subs := if cur = [] then subsections else subsections ++ [cur]
      if chunkSize < p.length then
        slsGo chunkSize overlap (subs ++ splitWithOverlap p chunkSize overlap) [] rest
      else slsGo chunkSize overlap subs p rest
    else
      slsGo chunkSize overlap subsections
        (if cur = [] then p else cur ++ '\n' :: '\n' :: p) rest

/-- `SemanticChunker._split_long_section(section)` (chunker.py lines
175-225): split by paragraphs when there are at least two, else fall back
to the sentence splitter. -/
def splitLongSection (chunkSize overlap : ℕ) (sec : List Char) : List (List Char) :=
  let paragraphs := splitParagraphs sec
  if 1 < paragraphs.length then slsGo chunkSize overlap [] [] paragraphs
  else splitWithOverlap sec chunkSize overlap

/-- The marker alternation `(?:#{1,6}|\*{1,3}|\={3,}|\-{3,})` at position
`p`: a maximal run of one marker character of admissible length.  Returns
the position after the marker.  (A run longer than the allowed maximum
cannot match, because any shorter prefix is followed by the marker
character, which fails the following `\s+`.) -/
def matchMarkerEnd (cs : List Char) (p : ℕ) : Option ℕ :=
  match cs.drop p with
  | [] => none
  | c :: _ =>
    let r := ((cs.drop p).takeWhile (fun x => x = c)).length
    if c = '#' then (if r ≤ 6 then some (p + r) else none)
    else if c = '*' then (if r ≤ 3 then some (p + r) else none)
    else if c = '=' ∨ c = '-' then (if 3 ≤ r then some (p + r) else none)
    else none

/-- The end of the heading match when the lazy `(.+?)(?:\n|$)` starts at
content position `t` (where `cs.get t` is not '\n'): the content extends to
the first '\n' after `t` (consumed by the final `\n`) or to the end of the
text. -/
def endAfterContent (cs : List Char) (t : ℕ) : ℕ :=
  match (cs.drop (t + 1)).findIdx? (fun c => c = '\n') with
  | some u => t + 1 + u + 1
  | none => cs.length

/-- Match of the heading pattern with the marker at position `p`: after the
marker, the greedy `\s+` takes the maximal whitespace run; if text follows
the run, the content starts right after it; if the run reaches the end of
the text, `\s+` backtracks to the last position `j ≥ 1` of the run whose
character is not '\n' (which then starts the content).  Returns the match
end. -/
def tryHeadingEnd (cs : List Char) (p : ℕ) : Option ℕ :=
  match matchMarkerEnd cs p with
  | none => none
  | some q =>
    let run := (cs.drop q).takeWhile pyIsSpace
    let w := run.length
    if w = 0 then none
    else if cs.length ≤ q + w then
      match lastIdxNotNl (run.drop 1) with
      | some j => some (endAfterContent cs (q + 1 + j))
      | none => none
    else some (endAfterContent cs (q + w))

/-- A heading match starting at position `i`: at position 0 the zero-width
`^` alternative is tried first (marker at 0), then the literal '\n'
alternative; elsewhere only the '\n' alternative applies. -/
def tryHeadingAt (cs : List Char) (i : ℕ) : Option ℕ :=
  if i = 0 then
    match tryHeadingEnd cs 0 with
    | some e => some e
    | none => if cs.head? = some '\n' then tryHeadingEnd cs 1 else none
  else if (cs.drop i).head? = some '\n' then tryHeadingEnd cs (i + 1) else none

/-- `re.finditer` scan for the heading pattern from position `i`: emit the
start of each (leftmost, non-overlapping) match and resume at its end.
(Every match consumes at least its marker, so the match end is always
beyond `i`; `max (i + 1) e` only makes that manifest.) -/
def headingScan (cs : List Char) (i : ℕ) : List ℕ :=
  if _h : cs.length ≤ i then []
  else
    match tryHeadingAt cs i with
    | some e => i :: headingScan cs (max (i + 1) e)
    | none => headingScan cs (i + 1)
termination_by cs.length - i
decreasing_by
  · omega
  · omega

/-- The start positions of the heading matches
(`headings = list(re.finditer(heading_pattern, text))`, chunker.py
line 116). -/
def headingStarts (cs : List Char) : List ℕ := headingScan cs 0

/-- The heading-delimited sections (chunker.py lines 142-156): for each
match start, the slice of `text` up to the next match start (or the end of
the text), stripped, kept when non-empty. -/
def sliceSecs (cs : List Char) : List ℕ → List (List Char)
  | [] => []
  | s :: rest =>
    let e := match rest.head? with
      | some e2 => e2
      | none => cs.length
    let sec := pyStrip ((cs.drop s).take (e - s))
    if sec = [] then sliceSecs cs rest else sec :: sliceSecs cs rest

/-- The paragraph-packing loop used when no headings are found (chunker.py
lines 120-139). -/
def paraCombine (chunkSize : ℕ) (sections : List (List Char)) (cur : List Char) :
    List (List Char) → List (List Char)
  | [] => if cur = [] then sections else sections ++ [cur]
  | p :: rest =>
    if chunkSize < cur.length + p.length then
      paraCombine chunkSize (if cur = [] then sections else sections ++ [cur]) p rest
    else
      paraCombine chunkSize sections
        (if cur = [] then p else cur ++ '\n' :: '\n' :: p) rest

/-- `ProcessorConfig` (config.py): the fields the chunker reads are
`chunk_size`, `chunk_overlap` and `preserve_sections`; sizes are
non-negative ints. -/
structure ProcessorConfig where
  chunkSize : ℕ := 1000
  chunkOverlap : ℕ := 200
  minChunkSize : ℕ := 100
  preserveSections : Bool := true
  maxDocumentsPerRun : ℕ := 100
deriving Repr, DecidableEq

/-- `SemanticChunker._extract_sections(text)` (chunker.py lines 95-173). -/
def extractSections (cfg : ProcessorConfig) (text : List Char) : List (List Char) :=
  if !cfg.preserveSections then
    splitWithOverlap text cfg.chunkSize cfg.chunkOverlap
  else
    let sections :=
      match headingStarts text with
      | [] => paraCombine cfg.chunkSize [] [] (splitParagraphs text)
      | s0 :: rest =>
        let secs := sliceSecs text (s0 :: rest)
        if 0 < s0 then
          let first := pyStrip (text.take s0)
          if first = [] then secs else first :: secs
        else secs
    sections.flatMap fun sec =>
      if cfg.chunkSize < sec.length then
        splitLongSection cfg.chunkSize cfg.chunkOverlap sec
      else [sec]

/-- `Document` (schemas.py): the fields the chunker reads (`id`, `content`,
`metadata`); the metadata is passed through untouched and is abstracted by
the type parameter `μ`. -/
structure Document (μ : Type) where
  id : String
  content : List Char
  metadata : μ
deriving Repr, DecidableEq

/-- `DocumentChunk` (schemas.py): the fields the chunker writes. -/
structure DocumentChunk (μ : Type) where
  id : String
  documentId : String
  content : List Char
  metadata : μ
  chunkIndex : ℕ
  totalChunks : ℕ
deriving Repr, DecidableEq

/-- The chunk contents emitted by the main loop of `chunk_document`
(chunker.py lines 50-86), in order: sections that are whitespace-only
after stripping are skipped, over-long sections are split by
`_split_long_section` and emitted subsection by subsection, other sections
are emitted whole. -/
def emitContents (cfg : ProcessorConfig) (sections : List (List Char)) :
    List (List Char) :=
  sections.flatMap fun sec =>
    if pyStrip sec = [] then []
    else if cfg.chunkSize < sec.length then
      splitLongSection cfg.chunkSize cfg.chunkOverlap sec
    else [sec]

/-- `SemanticChunker.chunk_document(document)` (chunker.py lines 33-93):
`chunk_index` is incremented once per emitted chunk, so the `k`-th emitted
content gets index `k` and id `f"{document.id}_{k}"`; `total_chunks` is
written to every chunk after the loop (`total_chunks = len(document_chunks)`,
lines 88-91). -/
def chunkDocument {μ : Type} (cfg : ProcessorConfig) (doc : Document μ) :
    List (DocumentChunk μ) :=
  let contents := emitContents cfg (extractSections cfg doc.content)
  let total := contents.length
  contents.enum.map fun p =>
    { id := doc.id ++ "_" ++ toString p.1, documentId := doc.id,
      content := p.2, metadata := doc.metadata,
      chunkIndex := p.1, totalChunks := total }

/-- UTF-8 encoded byte length of one character (used to state the
byte-size claim; Python `len(text.encode("utf-8"))`). -/
def utf8CharBytes (c : Char) : ℕ :=
  if c.toNat < 128 then 1
  else if c.toNat < 2048 then 2
  else if c.toNat < 65536 then 3
  else 4

/-- UTF-8 encoded byte length of a text. -/
def utf8Bytes (l : List Char) : ℕ := (l.map utf8CharBytes).sum

/-- The ordering invariant of the merged output: adjacent scores are
non-increasing. -/
def SortedDesc (l : List SearchResult) : Prop :=
  List.Chain' (fun a b => b.score ≤ a.score) l

/-- A text consisting of whitespace only. -/
def AllWs (l : List Char) : Prop := ∀ c ∈ l, pyIsSpace c

/-- `pieces` covers the whitespace-delimited tokens of `text`: every token
of `text` is a token of some piece. -/
def TokCover (pieces : List (List Char)) (text : List Char) : Prop :=
  ∀ t ∈ pySplitWs text, ∃ p ∈ pieces, t ∈ pySplitWs p

-- ===== END OF DEFINITIONS (further definitions are inserted above) =====

/-! ## Lemmas about the stable descending sort -/

theorem insertDesc_perm (r : SearchResult) (l : List SearchResult) :
    (insertDesc r l).Perm (r :: l) := by
  induction l with
  | nil => simp [insertDesc]
  | cons x xs ih =>
    simp only [insertDesc]
    split
    · exact List.Perm.refl _
    · exact (ih.cons x).trans (List.Perm.swap r x xs)

theorem sortByScoreDesc_aux_perm (l : List SearchResult) :
    ∀ acc : List SearchResult,
      (List.foldl (fun a r => insertDesc r a) acc l).Perm (acc ++ l) := by
  induction l with
  | nil => simp
  | cons x xs ih =>
    intro acc
    have h1 : (List.foldl (fun a r => insertDesc r a) (insertDesc x acc) xs).Perm
        (insertDesc x acc ++ xs) := ih _
    have h2 : (insertDesc x acc ++ xs).Perm ((x :: acc) ++ xs) :=
      (insertDesc_perm x acc).append_right xs
    have h3 : ((x :: acc) ++ xs).Perm (acc ++ x :: xs) := List.perm_middle.symm
    simpa using (h1.trans h2).trans h3

theorem sortByScoreDesc_perm (l : List SearchResult) : (sortByScoreDesc l).Perm l := by
  simpa [sortByScoreDesc] using sortByScoreDesc_aux_perm l []

theorem length_sortByScoreDesc (l : List SearchResult) :
    (sortByScoreDesc l).length = l.length :=
  (sortByScoreDesc_perm l).length_eq

theorem sortedDesc_insertDesc (r : SearchResult) (l : List SearchResult)
    (hl : SortedDesc l) : SortedDesc (insertDesc r l) := by
  induction l with
  | nil => simp [insertDesc, SortedDesc]
  | cons x xs ih =>
    simp only [insertDesc]
    split
    · rename_i hlt
      exact List.Chain'.cons (le_of_lt hlt) hl
    · rename_i hge
      have hxs : SortedDesc xs := (List.chain'_cons'.mp hl).2
      have htail := ih hxs
      refine List.chain'_cons'.mpr ⟨?_, htail⟩
      intro y hy
      cases xs with
      | nil =>
        simp [insertDesc] at hy
        subst hy
        exact le_of_not_lt hge
      | cons z zs =>
        simp only [insertDesc] at hy
        by_cases hz : z.score < r.score
        · simp [hz] at hy
          subst hy
          exact le_of_not_lt hge
        · simp [hz] at hy
          subst hy
          exact (List.chain'_cons.mp hl).1

theorem sortedDesc_foldl (l : List SearchResult) :
    ∀ acc : List SearchResult, SortedDesc acc →
      SortedDesc (List.foldl (fun a r => insertDesc r a) acc l) := by
  induction l with
  | nil => intro acc h; simpa using h
  | cons x xs ih =>
    intro acc h
    exact ih _ (sortedDesc_insertDesc x acc h)

theorem sortedDesc_sortByScoreDesc (l : List SearchResult) :
    SortedDesc (sortByScoreDesc l) :=
  sortedDesc_foldl l [] (by simp [SortedDesc])

theorem sortedDesc_take (l : List SearchResult) (n : ℕ) (h : SortedDesc l) :
    SortedDesc (l.take n) :=
  List.Chain'.take h n

theorem sortedDesc_head_le (x : SearchResult) (xs : List SearchResult)
    (h : SortedDesc (x :: xs)) : ∀ y ∈ xs, y.score ≤ x.score := by
  induction xs generalizing x with
  | nil => intro y hy; cases hy
  | cons z zs ih =>
    intro y hy
    have hxz : z.score ≤ x.score := (List.chain'_cons.mp h).1
    have htail : SortedDesc (z :: zs) := (List.chain'_cons.mp h).2
    rcases List.mem_cons.mp hy with rfl | hmem
    · exact hxz
    · exact le_trans (ih z htail y hmem) hxz

theorem filter_insertDesc_of_eq (r : SearchResult) (s : ℚ) (l : List SearchResult)
    (hl : SortedDesc l) (hr : r.score = s) :
    (insertDesc r l).filter (fun x => decide (x.score = s)) =
      l.filter (fun x => decide (x.score = s)) ++ [r] := by
  induction l with
  | nil => simp [insertDesc, hr]
  | cons x xs ih =>
    simp only [insertDesc]
    split
    · rename_i hlt
      have hxfalse : x.score ≠ s := ne_of_lt (hr ▸ hlt)
      have hfilter : xs.filter (fun y => decide (y.score = s)) = [] := by
        rw [List.filter_eq_nil_iff]
        intro y hy
        have hle : y.score ≤ x.score := sortedDesc_head_le x xs hl y hy
        have hlt2 : y.score < s := lt_of_le_of_lt hle (hr ▸ hlt)
        simp [ne_of_lt hlt2]
      simp [hr, hxfalse, hfilter]
    · rename_i hge
      have hxs : SortedDesc xs := (List.chain'_cons'.mp hl).2
      by_cases hx : x.score = s
      · simp [hx, ih hxs]
      · simp [hx, ih hxs]

theorem filter_insertDesc_of_ne (r : SearchResult) (s : ℚ) (l : List SearchResult)
    (hr : r.score ≠ s) :
    (insertDesc r l).filter (fun x => decide (x.score = s)) =
      l.filter (fun x => decide (x.score = s)) := by
  induction l with
  | nil => simp [insertDesc, hr]
  | cons x xs ih =>
    simp only [insertDesc]
    split
    · simp [hr]
    · by_cases hx : x.score = s
      · simp [hx, ih]
      · simp [hx, ih]

theorem filter_foldl_insertDesc (s : ℚ) (l : List SearchResult) :
    ∀ acc : List SearchResult, SortedDesc acc →
      (List.foldl (fun a r => insertDesc r a) acc l).filter
          (fun x => decide (x.score = s)) =
        acc.filter (fun x => decide (x.score = s)) ++
          l.filter (fun x => decide (x.score = s)) := by
  induction l with
  | nil => intro acc _; simp
  | cons x xs ih =>
    intro acc hacc
    have hstep := ih (insertDesc x acc) (sortedDesc_insertDesc x acc hacc)
    rw [List.foldl_cons, hstep]
    by_cases hx : x.score = s
    · rw [filter_insertDesc_of_eq x s acc hacc hx]
      simp [hx]
    · rw [filter_insertDesc_of_ne x s acc hx]
      simp [hx]

/-- Stability of the modelled sort: the results carrying any given score
appear in the sorted list exactly in their original relative order. -/
theorem filter_sortByScoreDesc (s : ℚ) (l : List SearchResult) :
    (sortByScoreDesc l).filter (fun x => decide (x.score = s)) =
      l.filter (fun x => decide (x.score = s)) := by
  simpa [sortByScoreDesc] using filter_foldl_insertDesc s l [] (by simp [SortedDesc])

/-! ## Lemmas about the budget split -/

theorem clampRatio_nonneg (r : ℚ) : 0 ≤ clampRatio r := le_max_left 0 _

theorem clampRatio_le_one (r : ℚ) : clampRatio r ≤ 1 :=
  max_le (by norm_num) (min_le_left 1 r)

theorem mkCombinedRetriever_ratio (m : ℕ) (r : ℚ) :
    (mkCombinedRetriever m r).ratio = clampRatio r := rfl

theorem mkCombinedRetriever_maxResults (m : ℕ) (r : ℚ) :
    (mkCombinedRetriever m r).maxResults = m := rfl

theorem pyTrunc_eq_floor (q : ℚ) (h : 0 ≤ q) : pyTrunc q = ⌊q⌋ := by
  simp [pyTrunc, h]

theorem expandedK_eq_floor (tk : ℤ) (ρ : ℚ) (htk : 1 ≤ tk) (h0 : 0 ≤ ρ) :
    expandedK tk ρ = max 1 ⌊(tk : ℚ) * ρ⌋ := by
  have hq : (0 : ℚ) ≤ (tk : ℚ) * ρ := by
    apply mul_nonneg _ h0
    exact_mod_cast le_trans (by norm_num) htk
  rw [expandedK, pyTrunc_eq_floor _ hq]

theorem one_le_expandedK (tk : ℤ) (ρ : ℚ) : 1 ≤ expandedK tk ρ := le_max_left 1 _

theorem one_le_originalK (tk : ℤ) (ρ : ℚ) : 1 ≤ originalK tk ρ := le_max_left 1 _

theorem expandedK_le_topK (tk : ℤ) (ρ : ℚ) (htk : 1 ≤ tk) (h0 : 0 ≤ ρ)
    (h1 : ρ ≤ 1) : expandedK tk ρ ≤ tk := by
  rw [expandedK_eq_floor tk ρ htk h0]
  have htk0 : (0 : ℚ) ≤ (tk : ℚ) := by exact_mod_cast le_trans (by norm_num) htk
  have hle : (tk : ℚ) * ρ ≤ (tk : ℚ) := by
    calc (tk : ℚ) * ρ ≤ (tk : ℚ) * 1 := mul_le_mul_of_nonneg_left h1 htk0
      _ = (tk : ℚ) := mul_one _
  have hfloor : ⌊(tk : ℚ) * ρ⌋ ≤ tk := by
    calc ⌊(tk : ℚ) * ρ⌋ ≤ ⌊(tk : ℚ)⌋ := Int.floor_mono hle
      _ = tk := Int.floor_intCast tk
  exact max_le htk hfloor

theorem originalK_add_expandedK_le (tk : ℤ) (ρ : ℚ) (htk : 1 ≤ tk) (h0 : 0 ≤ ρ)
    (h1 : ρ ≤ 1) : originalK tk ρ + expandedK tk ρ ≤ tk + 1 := by
  have he := expandedK_le_topK tk ρ htk h0 h1
  rw [originalK]
  omega

/-! ## Claim theorems for `CombinedRetriever` -/

/-- C10: the constructor stores `ratio` clamped to `max(0.0, min(1.0, ratio))`,
so `0 ≤ ratio ≤ 1` holds after construction, and `semantic_search` leaves the
retriever state (in particular `ratio`) unchanged. -/
theorem c10_ratio_clamped (m : ℕ) (r : ℚ) :
    (mkCombinedRetriever m r).ratio = max 0 (min 1 r) ∧
    0 ≤ (mkCombinedRetriever m r).ratio ∧
    (mkCombinedRetriever m r).ratio ≤ 1 ∧
    ∀ (origSearch expSearch : ℤ → Except String (List SearchResult)) (topK : ℤ),
      (semanticSearchWithState (mkCombinedRetriever m r) origSearch expSearch topK).2 =
        mkCombinedRetriever m r :=
  ⟨rfl, clampRatio_nonneg r, clampRatio_le_one r, fun _ _ _ => rfl⟩

/-- C2 counterexample: the code computes `expanded_k` with `int` truncation,
not `round` — at `top_k = 3`, `ratio = 0.5` it yields `1` while the claimed
formula `max(1, round(top_k × ratio))` yields `2` — and at `ratio = 0` it
yields `max(1, 0) = 1`, not `0`: a query with budget 1 is still issued to
the expanded source. -/
theorem c2_counterexample :
    expandedK 3 ((mkCombinedRetriever 10 (1/2)).ratio) = 1 ∧
    max 1 (pyRound ((3 : ℚ) * (1/2))) = 2 ∧
    expandedK 5 ((mkCombinedRetriever 10 0).ratio) ≠ 0 ∧
    issuedQueries (mkCombinedRetriever 10 0) 5 = [("original", 4), ("expanded", 1)] := by
  refine ⟨?_, ?_, ?_, ?_⟩
  · have : clampRatio (1/2) = 1/2 := by
      rw [clampRatio]
      norm_num
    rw [mkCombinedRetriever_ratio, this]
    norm_num [expandedK, pyTrunc]
  · norm_num [pyRound, Int.floor_eq_iff]
  · have : clampRatio 0 = 0 := by
      rw [clampRatio]
      norm_num
    rw [mkCombinedRetriever_ratio, this]
    norm_num [expandedK, pyTrunc]
  · have h0 : clampRatio 0 = 0 := by
      rw [clampRatio]
      norm_num
    have he : expandedK 5 (clampRatio 0) = 1 := by
      rw [h0]
      norm_num [expandedK, pyTrunc]
    have ho : originalK 5 (clampRatio 0) = 4 := by
      rw [originalK, he]
      norm_num
    simp [issuedQueries, mkCombinedRetriever_ratio, he, ho]

/-- C2 amended: `semantic_search` computes
`expanded_k = max(1, ⌊top_k × ratio⌋)` (truncation, not rounding) and
`original_k = max(1, top_k − expanded_k)`; both budgets are always at least
1 and `expanded_k ≤ top_k`, and a query is always issued to *both* sources
(with budget ≥ 1), even when the clamped ratio is exactly 0 or exactly 1. -/
theorem c2_amended (m : ℕ) (tk : ℤ) (r : ℚ) (htk : 1 ≤ tk) :
    expandedK tk (mkCombinedRetriever m r).ratio = max 1 ⌊(tk : ℚ) * clampRatio r⌋ ∧
    originalK tk (mkCombinedRetriever m r).ratio =
      max 1 (tk - expandedK tk (mkCombinedRetriever m r).ratio) ∧
    1 ≤ expandedK tk (mkCombinedRetriever m r).ratio ∧
    1 ≤ originalK tk (mkCombinedRetriever m r).ratio ∧
    expandedK tk (mkCombinedRetriever m r).ratio ≤ tk ∧
    issuedQueries (mkCombinedRetriever m r) tk =
      [("original", originalK tk (clampRatio r)), ("expanded", expandedK tk (clampRatio r))] := by
  rw [mkCombinedRetriever_ratio]
  exact ⟨expandedK_eq_floor tk _ htk (clampRatio_nonneg r), rfl,
    one_le_expandedK tk _, one_le_originalK tk _,
    expandedK_le_topK tk _ htk (clampRatio_nonneg r) (clampRatio_le_one r), rfl⟩

theorem c2_amended_witness :
    (1 : ℤ) ≤ 5 ∧
    (expandedK 5 (mkCombinedRetriever 10 (1/2)).ratio =
        max 1 ⌊(5 : ℚ) * clampRatio (1/2)⌋ ∧
      originalK 5 (mkCombinedRetriever 10 (1/2)).ratio =
        max 1 (5 - expandedK 5 (mkCombinedRetriever 10 (1/2)).ratio) ∧
      1 ≤ expandedK 5 (mkCombinedRetriever 10 (1/2)).ratio ∧
      1 ≤ originalK 5 (mkCombinedRetriever 10 (1/2)).ratio ∧
      expandedK 5 (mkCombinedRetriever 10 (1/2)).ratio ≤ 5 ∧
      issuedQueries (mkCombinedRetriever 10 (1/2)) 5 =
        [("original", originalK 5 (clampRatio (1/2))),
         ("expanded", expandedK 5 (clampRatio (1/2)))]) :=
  ⟨by norm_num, c2_amended 10 5 (1/2) (by norm_num)⟩

/-- C3 counterexample: with `ratio = 1`, `top_k = 5`, `max_results = 10` and
sources that return exactly their requested budgets (`original_k = 1`,
`expanded_k = 5`), `semantic_search` returns 6 results — more than
`min(top_k, max_results) = 5`.  The code truncates at `max_results` only,
never at `top_k`. -/
theorem c3_counterexample :
    ¬ ((semanticSearch (mkCombinedRetriever 10 1) origSearchEx3 expSearchEx3 5).length
        ≤ min 5 10) := by
  have hρ : clampRatio 1 = 1 := by
    rw [clampRatio]
    norm_num
  have he : expandedK 5 (1 : ℚ) = 5 := by
    norm_num [expandedK, pyTrunc]
  have ho : originalK 5 (1 : ℚ) = 1 := by
    rw [originalK, he]
    norm_num
  have hc : (combinedResults (mkCombinedRetriever 10 1) origSearchEx3 expSearchEx3 5).length
      = 6 := by
    rw [combinedResults, mkCombinedRetriever_ratio, hρ, he, ho]
    simp [origSearchEx3, expSearchEx3]
  have hlen : (semanticSearch (mkCombinedRetriever 10 1) origSearchEx3 expSearchEx3 5).length
      = 6 := by
    rw [semanticSearch, List.length_take, length_sortByScoreDesc, hc]
    rfl
  rw [hlen]
  norm_num

/-- C3 amended: the returned list is truncated at `max_results` only; under
the (natural) assumption that each source returns at most its requested
budget, the length is also at most `min(top_k + 1, max_results)`.  The
`top_k` part of the claimed bound can be exceeded by exactly one result
(when `expanded_k = top_k`, i.e. clamped ratio 1, both budgets together are
`top_k + 1`). -/
theorem c3_amended (m : ℕ) (r : ℚ) (tk : ℤ) (htk : 1 ≤ tk)
    (orig exp : ℤ → Except String (List SearchResult))
    (ho : ∀ l, orig (originalK tk (clampRatio r)) = .ok l →
      (l.length : ℤ) ≤ originalK tk (clampRatio r))
    (he : ∀ l, exp (expandedK tk (clampRatio r)) = .ok l →
      (l.length : ℤ) ≤ expandedK tk (clampRatio r)) :
    (semanticSearch (mkCombinedRetriever m r) orig exp tk).length ≤ m ∧
    ((semanticSearch (mkCombinedRetriever m r) orig exp tk).length : ℤ)
      ≤ min (tk + 1) (m : ℤ) := by
  set ρ := clampRatio r with hρ
  have hco : ((combinedResults (mkCombinedRetriever m r) orig exp tk).length : ℤ)
      ≤ tk + 1 := by
    rw [combinedResults, mkCombinedRetriever_ratio, ← hρ]
    have hsum := originalK_add_expandedK_le tk ρ htk (clampRatio_nonneg r)
      (clampRatio_le_one r)
    have hlo : ∀ l, orig (originalK tk ρ) = .ok l → (l.length : ℤ) ≤ originalK tk ρ := ho
    have hle : ∀ l, exp (expandedK tk ρ) = .ok l → (l.length : ℤ) ≤ expandedK tk ρ := he
    cases hor : orig (originalK tk ρ) with
    | error e =>
      cases hex : exp (expandedK tk ρ) with
      | error e2 =>
        simp only [List.length_append, List.length_map, List.length_nil]
        have h1 := one_le_originalK tk ρ
        have h2 := one_le_expandedK tk ρ
        push_cast
        omega
      | ok l2 =>
        have := hle l2 hex
        simp only [List.length_append, List.length_map, List.length_nil]
        have h1 := one_le_originalK tk ρ
        push_cast
        omega
    | ok l1 =>
      have hl1 := hlo l1 hor
      cases hex : exp (expandedK tk ρ) with
      | error e2 =>
        have h2 := one_le_expandedK tk ρ
        simp only [List.length_append, List.length_map, List.length_nil]
        push_cast
        omega
      | ok l2 =>
        have hl2 := hle l2 hex
        simp only [List.length_append, List.length_map]
        push_cast
        omega
  have hlen : (semanticSearch (mkCombinedRetriever m r) orig exp tk).length =
      min m (combinedResults (mkCombinedRetriever m r) orig exp tk).length := by
    rw [semanticSearch, List.length_take, length_sortByScoreDesc,
      mkCombinedRetriever_maxResults]
  constructor
  · rw [hlen]
    exact min_le_left _ _
  · rw [hlen]
    have h1 : (min m (combinedResults (mkCombinedRetriever m r) orig exp tk).length : ℤ)
        ≤ (combinedResults (mkCombinedRetriever m r) orig exp tk).length := by
      exact_mod_cast min_le_right _ _
    have h2 : (min m (combinedResults (mkCombinedRetriever m r) orig exp tk).length : ℤ)
        ≤ (m : ℤ) := by
      exact_mod_cast min_le_left _ _
    omega

theorem c3_amended_witness :
    (1 : ℤ) ≤ 5 ∧
    ((semanticSearch (mkCombinedRetriever 10 (1/2)) (fun _ => .ok []) (fun _ => .ok []) 5).length
        ≤ 10 ∧
      ((semanticSearch (mkCombinedRetriever 10 (1/2)) (fun _ => .ok []) (fun _ => .ok []) 5).length : ℤ)
        ≤ min ((5 : ℤ) + 1) (10 : ℤ)) := by
  refine ⟨by norm_num, c3_amended 10 (1/2) 5 (by norm_num) _ _ ?_ ?_⟩
  · intro l hl
    have hl2 : l = [] := by
      simpa using hl.symm
    subst hl2
    have h := one_le_originalK 5 (clampRatio (1/2))
    simp only [List.length_nil, Nat.cast_zero]
    omega
  · intro l hl
    have hl2 : l = [] := by
      simpa using hl.symm
    subst hl2
    have h := one_le_expandedK 5 (clampRatio (1/2))
    simp only [List.length_nil, Nat.cast_zero]
    omega

/-- C4: the returned list is sorted by score descending (adjacent pairs are
non-increasing); it equals the `max_results`-truncation of the stable
descending sort of the concatenation "original results then expanded
results", and equal scores keep that original order (primary-tagged results
before secondary-tagged ones) — the `filter` equation below says the
results carrying any given score appear exactly in their pre-sort order.
The output is thus a deterministic function of the two source result
lists. -/
theorem c4_sorted_stable (rt : CombinedRetriever)
    (orig exp : ℤ → Except String (List SearchResult)) (tk : ℤ) :
    List.Chain' (fun a b => b.score ≤ a.score) (semanticSearch rt orig exp tk) ∧
    semanticSearch rt orig exp tk =
      (sortByScoreDesc (combinedResults rt orig exp tk)).take rt.maxResults ∧
    ∀ s : ℚ,
      (sortByScoreDesc (combinedResults rt orig exp tk)).filter
          (fun x => decide (x.score = s)) =
        (combinedResults rt orig exp tk).filter (fun x => decide (x.score = s)) :=
  ⟨sortedDesc_take _ _ (sortedDesc_sortByScoreDesc _), rfl,
    fun s => filter_sortByScoreDesc s _⟩

/-- C5: an exception from either source is treated as zero results from that
source: the output equals the output computed with that source replaced by
one returning the empty list; if the primary raises and the secondary
returns a non-empty list (and `max_results ≥ 1`), the output is non-empty
and consists solely of expanded-tagged results; if both sources raise, the
output is the empty list (no exception propagates — the embedding is a
total function). -/
theorem c5_error_degradation (rt : CombinedRetriever)
    (orig exp : ℤ → Except String (List SearchResult)) (tk : ℤ) :
    (∀ e, orig (originalK tk rt.ratio) = .error e →
      semanticSearch rt orig exp tk = semanticSearch rt (fun _ => .ok []) exp tk) ∧
    (∀ e, exp (expandedK tk rt.ratio) = .error e →
      semanticSearch rt orig exp tk = semanticSearch rt orig (fun _ => .ok []) tk) ∧
    (∀ e l, orig (originalK tk rt.ratio) = .error e →
      exp (expandedK tk rt.ratio) = .ok l → l ≠ [] → 1 ≤ rt.maxResults →
      semanticSearch rt orig exp tk ≠ [] ∧
      ∀ x ∈ semanticSearch rt orig exp tk, x.source = "expanded") ∧
    (∀ e1 e2, orig (originalK tk rt.ratio) = .error e1 →
      exp (expandedK tk rt.ratio) = .error e2 →
      semanticSearch rt orig exp tk = []) := by
  refine ⟨?_, ?_, ?_, ?_⟩
  · intro e he
    simp [semanticSearch, combinedResults, he]
  · intro e he
    simp [semanticSearch, combinedResults, he]
  · intro e l he hl hne hm
    have hc : combinedResults rt orig exp tk = l.map formatExpanded := by
      simp [combinedResults, he, hl]
    constructor
    · have hlen : (semanticSearch rt orig exp tk).length =
          min rt.maxResults (l.map formatExpanded).length := by
        rw [semanticSearch, List.length_take, length_sortByScoreDesc, hc]
      have hpos : 0 < l.length := List.length_pos.mpr hne
      intro hnil
      rw [hnil] at hlen
      simp at hlen
      omega
    · intro x hx
      have hx2 : x ∈ sortByScoreDesc (combinedResults rt orig exp tk) :=
        List.take_subset _ _ hx
      have hx3 : x ∈ combinedResults rt orig exp tk :=
        (sortByScoreDesc_perm _).mem_iff.mp hx2
      rw [hc] at hx3
      rcases List.mem_map.mp hx3 with ⟨y, _, rfl⟩
      rfl
  · intro e1 e2 h1 h2
    simp [semanticSearch, combinedResults, h1, h2, sortByScoreDesc]

theorem c5_witness :
    semanticSearch (mkCombinedRetriever 10 0) searchRaises expSearchOne 5 ≠ [] ∧
    ∀ x ∈ semanticSearch (mkCombinedRetriever 10 0) searchRaises expSearchOne 5,
      x.source = "expanded" :=
  (c5_error_degradation (mkCombinedRetriever 10 0) searchRaises expSearchOne 5).2.2.1
    "boom" [⟨"e", 1, "", "", "", ""⟩] rfl rfl (by simp) (by norm_num [mkCombinedRetriever])

/-! ## Lemmas about the retry loop -/

theorem embedLoop_run_other (provider : ℕ → EmbedOutcome) (jitter : ℕ → ℚ)
    (mR : ℕ) (msg : ℕ → String) (m : String) :
    ∀ (d attempt : ℕ) (delay : ℚ), attempt + d < mR →
      (∀ k, attempt ≤ k → k < attempt + d → provider k = .rateLimit (msg k)) →
      provider (attempt + d) = .otherError m →
      embedLoop provider jitter mR attempt delay =
        ⟨.error (.other m), d + 1,
          (List.range d).map (fun i => delay * 2 ^ i + jitter (attempt + i))⟩ := by
  intro d
  induction d with
  | zero =>
    intro attempt delay h1 _ h3
    rw [embedLoop]
    simp only [Nat.add_zero] at h1 h3
    simp [h1, h3]
  | succ d ih =>
    intro attempt delay h1 h2 h3
    have hlt : attempt < mR := by omega
    have hrl : provider attempt = .rateLimit (msg attempt) :=
      h2 attempt le_rfl (by omega)
    have hlt2 : attempt < mR - 1 := by omega
    rw [embedLoop]
    simp only [hlt, if_true, hrl, hlt2]
    have hrec := ih (attempt + 1) (delay * 2) (by omega)
      (fun k hk1 hk2 => h2 k (by omega) (by omega))
      (by
        have : attempt + 1 + d = attempt + (d + 1) := by omega
        rw [this]
        exact h3)
    rw [hrec]
    refine congrArg₂ _ rfl ?_
    show (delay + jitter attempt) ::
        (List.range d).map (fun i => delay * 2 * 2 ^ i + jitter (attempt + 1 + i)) =
      (List.range (d + 1)).map (fun i => delay * 2 ^ i + jitter (attempt + i))
    rw [List.range_succ_eq_map, List.map_cons, List.map_map]
    refine congrArg₂ _ (by simp) ?_
    refine List.map_congr_left ?_
    intro i _
    have h2 : delay * 2 * 2 ^ i = delay * 2 ^ (i + 1) := by ring
    have h3 : attempt + 1 + i = attempt + (i + 1) := by omega
    simp only [Function.comp_apply, h2, h3]

theorem embedLoop_run_rateLimit (provider : ℕ → EmbedOutcome) (jitter : ℕ → ℚ)
    (mR : ℕ) (msg : ℕ → String) :
    ∀ (d attempt : ℕ) (delay : ℚ), attempt + d + 1 = mR →
      (∀ k, attempt ≤ k → k < mR → provider k = .rateLimit (msg k)) →
      embedLoop provider jitter mR attempt delay =
        ⟨.error (.rateLimit (msg (mR - 1))), d + 1,
          (List.range d).map (fun i => delay * 2 ^ i + jitter (attempt + i))⟩ := by
  intro d
  induction d with
  | zero =>
    intro attempt delay h1 h2
    have hlt : attempt < mR := by omega
    have hrl : provider attempt = .rateLimit (msg attempt) := h2 attempt le_rfl hlt
    have hatt : mR - 1 = attempt := by omega
    rw [embedLoop, hatt]
    simp [hlt, hrl]
  | succ d ih =>
    intro attempt delay h1 h2
    have hlt : attempt < mR := by omega
    have hrl : provider attempt = .rateLimit (msg attempt) := h2 attempt le_rfl hlt
    have hlt2 : attempt < mR - 1 := by omega
    rw [embedLoop]
    simp only [hlt, if_true, hrl, hlt2]
    have hrec := ih (attempt + 1) (delay * 2) (by omega)
      (fun k hk1 hk2 => h2 k (by omega) hk2)
    rw [hrec]
    refine congrArg₂ _ rfl ?_
    show (delay + jitter attempt) ::
        (List.range d).map (fun i => delay * 2 * 2 ^ i + jitter (attempt + 1 + i)) =
      (List.range (d + 1)).map (fun i => delay * 2 ^ i + jitter (attempt + i))
    rw [List.range_succ_eq_map, List.map_cons, List.map_map]
    refine congrArg₂ _ (by simp) ?_
    refine List.map_congr_left ?_
    intro i _
    have h2' : delay * 2 * 2 ^ i = delay * 2 ^ (i + 1) := by ring
    have h3 : attempt + 1 + i = attempt + (i + 1) := by omega
    simp only [Function.comp_apply, h2', h3]

/-- C8: for `embed_content` with non-empty (resolved) content:
(1) a non-rate-limit provider error at any attempt `n` is re-raised
immediately — the failing call is the last of the `n + 1` provider calls,
with no retry and no sleep after it (in particular `n = 0`: exactly one
provider call); (2) if every attempt rate-limits, the call makes exactly
`max_retries` provider calls and fails carrying the *last* underlying
rate-limit error, sleeping `max_retries - 1` times, the `i`-th sleep being
`initial_delay · 2^i + jitter(i)` — delays start at `initial_delay`
(default 1.0 s, `max_retries` default 5) and double on each attempt;
(3) when each jitter draw lies in `[0, 0.1 · current_delay]` (the range of
`random.uniform(0, 0.1 * delay)`), the `i`-th sleep lies between
`initial_delay · 2^i` and `1.1 · initial_delay · 2^i`. -/
theorem c8_retry_policy (provider : ℕ → EmbedOutcome) (jitter : ℕ → ℚ)
    (contents : String) (content title : Option String)
    (mR : ℕ) (iD : ℚ) (msg : ℕ → String)
    (hc : resolveContent contents content title ≠ "") :
    (∀ n m, n < mR → (∀ k, k < n → provider k = .rateLimit (msg k)) →
      provider n = .otherError m →
      embedContent provider jitter contents content title mR iD =
        ⟨.error (.other m), n + 1,
          (List.range n).map (fun i => iD * 2 ^ i + jitter i)⟩) ∧
    ((∀ k, k < mR → provider k = .rateLimit (msg k)) → 1 ≤ mR →
      embedContent provider jitter contents content title mR iD =
        ⟨.error (.rateLimit (msg (mR - 1))), mR,
          (List.range (mR - 1)).map (fun i => iD * 2 ^ i + jitter i)⟩) ∧
    (maxRetriesDefault = 5 ∧ initialDelayDefault = 1) ∧
    ((∀ k, k < mR → provider k = .rateLimit (msg k)) → 1 ≤ mR →
      (∀ i, 0 ≤ jitter i ∧ jitter i ≤ iD * 2 ^ i / 10) →
      ∀ i (h : i < (embedContent provider jitter contents content title mR iD).sleeps.length),
        iD * 2 ^ i ≤ (embedContent provider jitter contents content title mR iD).sleeps.get ⟨i, h⟩ ∧
        (embedContent provider jitter contents content title mR iD).sleeps.get ⟨i, h⟩
          ≤ iD * 2 ^ i + iD * 2 ^ i / 10) := by
  have hec : embedContent provider jitter contents content title mR iD =
      embedLoop provider jitter mR 0 iD := by
    rw [embedContent, if_neg hc]
  have hrl : (∀ k, k < mR → provider k = .rateLimit (msg k)) → 1 ≤ mR →
      embedContent provider jitter contents content title mR iD =
        ⟨.error (.rateLimit (msg (mR - 1))), mR,
          (List.range (mR - 1)).map (fun i => iD * 2 ^ i + jitter i)⟩ := by
    intro hall hmr
    rw [hec]
    have hrun := embedLoop_run_rateLimit provider jitter mR msg (mR - 1) 0 iD
      (by omega) (fun k _ hk2 => hall k hk2)
    simp only [Nat.zero_add] at hrun
    rw [hrun]
    have hm : mR - 1 + 1 = mR := by omega
    simp only [hm]
  refine ⟨?_, hrl, ⟨rfl, rfl⟩, ?_⟩
  · intro n m hn hk hother
    rw [hec]
    have hrun := embedLoop_run_other provider jitter mR msg m n 0 iD
      (by omega) (fun k _ hk2 => hk k (by omega)) (by simpa using hother)
    simpa using hrun
  · intro hall hmr hj i h
    have heq := hrl hall hmr
    have hget : (embedContent provider jitter contents content title mR iD).sleeps.get ⟨i, h⟩
        = iD * 2 ^ i + jitter i := by
      simp only [List.get_eq_getElem, heq, List.getElem_map, List.getElem_range]
    rw [hget]
    rcases hj i with ⟨hj0, hj1⟩
    constructor
    · linarith
    · linarith

theorem c8_witness :
    resolveContent "hi" none none ≠ "" ∧
    embedContent (fun _ => .rateLimit "quota") (fun _ => 0) "hi" none none 5 1 =
      ⟨.error (.rateLimit "quota"), 5, [1, 2, 4, 8]⟩ := by
  refine ⟨by decide, ?_⟩
  have h := (c8_retry_policy (fun _ => .rateLimit "quota") (fun _ => 0) "hi" none none 5 1
      (fun _ => "quota") (by decide)).2.1 (fun k _ => rfl) (by norm_num)
  rw [h]
  have hlist : (List.range 4).map (fun i => (1 : ℚ) * 2 ^ i + (0 : ℚ)) = [1, 2, 4, 8] := by
    simp [List.range_succ]
    norm_num
  simp only [EmbedRun.mk.injEq, true_and]
  show (List.range (5 - 1)).map (fun i => (1 : ℚ) * 2 ^ i + (0 : ℚ)) = [1, 2, 4, 8]
  exact hlist

/-! ## Lemmas about whitespace tokens (`pySplitWs`) -/

theorem pySplitWsAux_nil (cur : List Char) :
    pySplitWsAux cur [] = if cur = [] then [] else [cur.reverse] := rfl

theorem pySplitWsAux_skip_ws (ws b : List Char) (h : AllWs ws) :
    pySplitWsAux [] (ws ++ b) = pySplitWsAux [] b := by
  induction ws with
  | nil => rfl
  | cons c rest ih =>
    have hc : pyIsSpace c := h c (List.mem_cons_self c rest)
    have hrest : AllWs rest := fun x hx => h x (List.mem_cons_of_mem c hx)
    simp only [List.cons_append, pySplitWsAux, hc, if_true]
    exact ih hrest

theorem pySplitWsAux_sep (c : Char) (ws b cur : List Char) (hc : pyIsSpace c)
    (hws : AllWs ws) :
    pySplitWsAux cur (c :: (ws ++ b)) =
      (if cur = [] then [] else [cur.reverse]) ++ pySplitWsAux [] b := by
  by_cases hcur : cur = []
  · subst hcur
    simp only [pySplitWsAux, hc, if_true]
    rw [pySplitWsAux_skip_ws ws b hws]
    simp
  · simp only [pySplitWsAux, hc, if_true, hcur, if_false]
    rw [pySplitWsAux_skip_ws ws b hws]
    simp [hcur]

theorem pySplitWsAux_append_sep (sep b : List Char) (hne : sep ≠ [])
    (hws : AllWs sep) :
    ∀ (a cur : List Char),
      pySplitWsAux cur (a ++ sep ++ b) = pySplitWsAux cur (a ++ sep) ++ pySplitWsAux [] b := by
  intro a
  induction a with
  | nil =>
    intro cur
    cases sep with
    | nil => exact absurd rfl hne
    | cons c ws =>
      have hc : pyIsSpace c := hws c (List.mem_cons_self c ws)
      have hws2 : AllWs ws := fun x hx => hws x (List.mem_cons_of_mem c hx)
      simp only [List.nil_append]
      rw [List.cons_append, pySplitWsAux_sep c ws b cur hc hws2]
      have h2 : pySplitWsAux cur (c :: ws) = pySplitWsAux cur (c :: (ws ++ [])) := by
        simp
      rw [h2, pySplitWsAux_sep c ws [] cur hc hws2]
      simp [pySplitWsAux]
  | cons x a ih =>
    intro cur
    by_cases hx : pyIsSpace x
    · by_cases hcur : cur = []
      · subst hcur
        simp only [List.cons_append, pySplitWsAux, hx, if_true]
        exact ih []
      · simp only [List.cons_append, pySplitWsAux, hx, if_true, hcur, if_false]
        exact congrArg (List.cons cur.reverse) (ih [])
    · simp only [List.cons_append, pySplitWsAux, hx, if_false]
      exact ih (x :: cur)

theorem pySplitWsAux_trailing_ws (sep : List Char) (hws : AllWs sep) :
    ∀ (a cur : List Char), pySplitWsAux cur (a ++ sep) = pySplitWsAux cur a := by
  intro a
  induction a with
  | nil =>
    intro cur
    cases sep with
    | nil => simp
    | cons c ws =>
      have hc : pyIsSpace c := hws c (List.mem_cons_self c ws)
      have hws2 : AllWs ws := fun x hx => hws x (List.mem_cons_of_mem c hx)
      have h2 : pySplitWsAux cur ([] ++ c :: ws) = pySplitWsAux cur (c :: (ws ++ [])) := by
        simp
      rw [h2, pySplitWsAux_sep c ws [] cur hc hws2]
      simp [pySplitWsAux]
  | cons x a ih =>
    intro cur
    by_cases hx : pyIsSpace x
    · by_cases hcur : cur = []
      · subst hcur
        simp only [List.cons_append, pySplitWsAux, hx, if_true]
        exact ih []
      · simp only [List.cons_append, pySplitWsAux, hx, if_true, hcur, if_false]
        exact congrArg (List.cons cur.reverse) (ih [])
    · simp only [List.cons_append, pySplitWsAux, hx, if_false]
      exact ih (x :: cur)

/-- Splitting tokens across a non-empty whitespace separator. -/
theorem pySplitWs_append_sep (a sep b : List Char) (hne : sep ≠ [])
    (hws : AllWs sep) :
    pySplitWs (a ++ sep ++ b) = pySplitWs a ++ pySplitWs b := by
  rw [pySplitWs, pySplitWs, pySplitWs, pySplitWsAux_append_sep sep b hne hws a [],
    pySplitWsAux_trailing_ws sep hws a []]

theorem pySplitWs_cons_ws (c : Char) (b : List Char) (hc : pyIsSpace c) :
    pySplitWs (c :: b) = pySplitWs b := by
  have h := pySplitWsAux_skip_ws [c] b (by intro x hx; simp at hx; subst hx; exact hc)
  simpa [pySplitWs] using h

theorem pySplitWs_append_cons_ws (a : List Char) (c : Char) (b : List Char)
    (hc : pyIsSpace c) :
    pySplitWs (a ++ c :: b) = pySplitWs a ++ pySplitWs b := by
  have h := pySplitWs_append_sep a [c] b (by simp)
    (by intro x hx; simp at hx; subst hx; exact hc)
  simpa using h

theorem pySplitWs_of_allWs (l : List Char) (h : AllWs l) : pySplitWs l = [] := by
  have h2 := pySplitWsAux_skip_ws l [] h
  simpa [pySplitWs] using h2

/-- `str.strip` only removes whitespace at the ends, so the tokens are
unchanged. -/
theorem pySplitWs_pyStrip (l : List Char) : pySplitWs (pyStrip l) = pySplitWs l := by
  have htake : AllWs (l.takeWhile pyIsSpace) := fun x hx => List.mem_takeWhile_imp hx
  have h1 : pySplitWs l = pySplitWs (l.dropWhile pyIsSpace) := by
    conv_lhs => rw [← List.takeWhile_append_dropWhile pyIsSpace l]
    exact pySplitWsAux_skip_ws _ _ htake
  set d := l.dropWhile pyIsSpace with hd
  have htrail : AllWs (d.reverse.takeWhile pyIsSpace).reverse := by
    intro x hx
    exact List.mem_takeWhile_imp (List.mem_reverse.mp hx)
  have hsplit : d = pyStrip l ++ (d.reverse.takeWhile pyIsSpace).reverse := by
    have h3 : d.reverse = d.reverse.takeWhile pyIsSpace ++ d.reverse.dropWhile pyIsSpace :=
      (List.takeWhile_append_dropWhile pyIsSpace d.reverse).symm
    have h4 : d = (d.reverse.dropWhile pyIsSpace).reverse ++
        (d.reverse.takeWhile pyIsSpace).reverse := by
      calc d = d.reverse.reverse := (List.reverse_reverse d).symm
        _ = (d.reverse.takeWhile pyIsSpace ++ d.reverse.dropWhile pyIsSpace).reverse := by
            rw [← h3]
        _ = (d.reverse.dropWhile pyIsSpace).reverse ++
            (d.reverse.takeWhile pyIsSpace).reverse := by
            rw [List.reverse_append]
    exact h4
  rw [h1, hsplit, pyStrip, ← hd]
  exact (pySplitWsAux_trailing_ws _ htrail _ []).symm

/-- A token is a contiguous substring of the text it was split from. -/
theorem pySplitWsAux_substring (t : List Char) :
    ∀ (cs cur : List Char), t ∈ pySplitWsAux cur cs →
      ∃ pre post, cur.reverse ++ cs = pre ++ t ++ post := by
  intro cs
  induction cs with
  | nil =>
    intro cur ht
    by_cases hcur : cur = []
    · subst hcur
      simp [pySplitWsAux] at ht
    · simp [pySplitWsAux, hcur] at ht
      subst ht
      exact ⟨[], [], by simp⟩
  | cons c rest ih =>
    intro cur ht
    by_cases hc : pyIsSpace c
    · by_cases hcur : cur = []
      · subst hcur
        simp only [pySplitWsAux, hc, if_true] at ht
        rcases ih [] ht with ⟨pre, post, hp⟩
        exact ⟨c :: pre, post, by simp at hp; simp [hp]⟩
      · simp only [pySplitWsAux, hc, if_true, hcur, if_false, List.mem_cons] at ht
        rcases ht with rfl | ht
        · exact ⟨[], c :: rest, by simp⟩
        · rcases ih [] ht with ⟨pre, post, hp⟩
          refine ⟨cur.reverse ++ c :: pre, post, ?_⟩
          simp at hp
          simp [hp]
    · simp only [pySplitWsAux, hc, if_false] at ht
      rcases ih (c :: cur) ht with ⟨pre, post, hp⟩
      refine ⟨pre, post, ?_⟩
      simp at hp
      simpa using hp

theorem pySplitWs_substring (t l : List Char) (ht : t ∈ pySplitWs l) :
    ∃ pre post, l = pre ++ t ++ post := by
  have h := pySplitWsAux_substring t l [] ht
  simpa using h

/-! ## The paragraph and sentence splits preserve tokens exactly -/

theorem lastIdxOfNl_lt_length (l : List Char) :
    ∀ k, lastIdxOfNl l = some k → k < l.length := by
  induction l with
  | nil => intro k h; simp [lastIdxOfNl] at h
  | cons c rest ih =>
    intro k h
    simp only [lastIdxOfNl] at h
    cases h2 : lastIdxOfNl rest with
    | some j =>
      rw [h2] at h
      have h3 := ih j h2
      simp at h
      simp only [List.length_cons]
      omega
    | none =>
      rw [h2] at h
      by_cases hc : c = '\n'
      · simp [hc] at h
        simp [← h]
      · simp [hc] at h

theorem take_of_takeWhile_le (p : Char → Bool) (l : List Char) (n : ℕ)
    (h : n ≤ (l.takeWhile p).length) : l.take n = (l.takeWhile p).take n := by
  rcases (List.takeWhile_prefix p (l := l)) with ⟨t, ht⟩
  conv_lhs => rw [← ht]
  rw [List.take_append_eq_append_take]
  have h2 : n - (l.takeWhile p).length = 0 := by omega
  rw [h2]
  simp

theorem allWs_take_takeWhileWs (l : List Char) (n : ℕ)
    (h : n ≤ (l.takeWhile pyIsSpace).length) : AllWs (l.take n) := by
  rw [take_of_takeWhile_le pyIsSpace l n h]
  intro x hx
  exact List.mem_takeWhile_imp (List.take_subset n _ hx)

/-- The paragraph split removes only whitespace separators and cuts only at
whitespace, so its pieces carry exactly the tokens of the text. -/
theorem paraScan_tokens :
    ∀ (acc cs : List Char),
      (paraScan acc cs).flatMap pySplitWs = pySplitWs (acc.reverse ++ cs) := by
  intro acc cs
  induction acc, cs using paraScan.induct with
  | case1 acc =>
    rw [paraScan]
    simp
  | case2 acc rest k hk ih =>
    have hstep : paraScan acc ('\n' :: rest) = acc.reverse :: paraScan [] (rest.drop (k + 1)) := by
      rw [paraScan]
      simp [hk]
    rw [hstep]
    have hklen : k < (rest.takeWhile pyIsSpace).length := lastIdxOfNl_lt_length _ k hk
    have hsep : AllWs ('\n' :: rest.take (k + 1)) := by
      intro x hx
      rcases List.mem_cons.mp hx with rfl | hx2
      · simp [pyIsSpace]
      · exact allWs_take_takeWhileWs rest (k + 1) (by omega) x hx2
    have hdecomp : acc.reverse ++ '\n' :: rest =
        acc.reverse ++ ('\n' :: rest.take (k + 1)) ++ rest.drop (k + 1) := by
      simp [List.append_assoc]
    rw [hdecomp, pySplitWs_append_sep _ _ _ (by simp) hsep]
    rw [List.flatMap_cons, ih]
    simp
  | case3 acc rest hk ih =>
    have hstep : paraScan acc ('\n' :: rest) = paraScan ('\n' :: acc) rest := by
      rw [paraScan]
      simp [hk]
    rw [hstep, ih]
    simp
  | case4 acc c rest hc ih =>
    have hstep : paraScan acc (c :: rest) = paraScan (c :: acc) rest := by
      rw [paraScan]
      simp [hc]
    rw [hstep, ih]
    simp

theorem splitParagraphs_tokens (l : List Char) :
    (splitParagraphs l).flatMap pySplitWs = pySplitWs l := by
  have h := paraScan_tokens [] l
  simpa [splitParagraphs] using h

/-- The sentence split removes only whitespace separators and cuts only at
whitespace. -/
theorem sentScan_tokens :
    ∀ (acc : List Char) (prev : Option Char) (cs : List Char),
      (sentScan acc prev cs).flatMap pySplitWs = pySplitWs (acc.reverse ++ cs) := by
  intro acc prev cs
  induction acc, prev, cs using sentScan.induct with
  | case1 acc prev =>
    rw [sentScan]
    simp
  | case2 acc prev c rest hc ih =>
    have hstep : sentScan acc prev (c :: rest) =
        acc.reverse :: sentScan [] none (rest.dropWhile pyIsSpace) := by
      rw [sentScan]
      simp [hc]
    rw [hstep]
    have hcws : pyIsSpace c := (Bool.and_eq_true _ _ |>.mp hc).2
    have hsep : AllWs (c :: rest.takeWhile pyIsSpace) := by
      intro x hx
      rcases List.mem_cons.mp hx with rfl | hx2
      · exact hcws
      · exact List.mem_takeWhile_imp hx2
    have hdecomp : acc.reverse ++ c :: rest =
        acc.reverse ++ (c :: rest.takeWhile pyIsSpace) ++ rest.dropWhile pyIsSpace := by
      simp only [List.append_assoc, List.cons_append, List.takeWhile_append_dropWhile]
    rw [hdecomp, pySplitWs_append_sep _ _ _ (by simp) hsep]
    rw [List.flatMap_cons, ih]
    simp
  | case3 acc prev c rest hc ih =>
    have hstep : sentScan acc prev (c :: rest) = sentScan (c :: acc) (some c) rest := by
      rw [sentScan]
      simp [hc]
    rw [hstep, ih]
    simp

theorem sentSplit_tokens (l : List Char) :
    (sentSplit l).flatMap pySplitWs = pySplitWs l := by
  have h := sentScan_tokens [] none l
  simpa [sentSplit] using h

/-! ## Token coverage of the packing loops -/

theorem tokCover_single (l : List Char) : TokCover [l] l := by
  intro t ht
  exact ⟨l, List.mem_singleton.mpr rfl, ht⟩

theorem tokCover_of_flatMap_eq (pieces : List (List Char)) (text : List Char)
    (h : pieces.flatMap pySplitWs = pySplitWs text) : TokCover pieces text := by
  intro t ht
  rw [← h] at ht
  rcases List.mem_flatMap.mp ht with ⟨p, hp, htp⟩
  exact ⟨p, hp, htp⟩

theorem tokCover_flatMap (pieces : List (List Char)) (text : List Char)
    (f : List Char → List (List Char)) (h1 : TokCover pieces text)
    (h2 : ∀ p ∈ pieces, TokCover (f p) p) :
    TokCover (pieces.flatMap f) text := by
  intro t ht
  rcases h1 t ht with ⟨p, hp, htp⟩
  rcases h2 p hp t htp with ⟨q, hq, htq⟩
  exact ⟨q, List.mem_flatMap.mpr ⟨p, hp, hq⟩, htq⟩

theorem swoGo_covers (cs ov : ℕ) :
    ∀ (sentences chunks : List (List Char)) (cur t : List Char),
      ((∃ p ∈ chunks, t ∈ pySplitWs p) ∨ t ∈ pySplitWs cur ∨
        ∃ s ∈ sentences, t ∈ pySplitWs s) →
      ∃ ch ∈ swoGo cs ov chunks cur sentences, t ∈ pySplitWs ch := by
  intro sentences
  induction sentences with
  | nil =>
    intro chunks cur t h
    rcases h with ⟨p, hp, htp⟩ | hcur | ⟨s, hs, _⟩
    · refine ⟨p, ?_, htp⟩
      rw [swoGo]
      split
      · exact hp
      · exact List.mem_append_left _ hp
    · have hcurne : cur ≠ [] := by
        intro hnil
        rw [hnil] at hcur
        simp [pySplitWs, pySplitWsAux] at hcur
      refine ⟨cur, ?_, hcur⟩
      rw [swoGo, if_neg hcurne]
      exact List.mem_append_right _ (List.mem_singleton.mpr rfl)
    · cases hs
  | cons s rest ih =>
    intro chunks cur t h
    rw [swoGo]
    by_cases hover : cs < cur.length + s.length
    · rw [if_pos hover]
      apply ih
      rcases h with ⟨p, hp, htp⟩ | hcur | ⟨s2, hs2, hts2⟩
      · refine Or.inl ⟨p, ?_, htp⟩
        split
        · exact hp
        · exact List.mem_append_left _ hp
      · have hcurne : cur ≠ [] := by
          intro hnil
          rw [hnil] at hcur
          simp [pySplitWs, pySplitWsAux] at hcur
        refine Or.inl ⟨cur, ?_, hcur⟩
        rw [if_neg hcurne]
        exact List.mem_append_right _ (List.mem_singleton.mpr rfl)
      · rcases List.mem_cons.mp hs2 with rfl | hmem
        · refine Or.inr (Or.inl ?_)
          by_cases hob : 0 < ov ∧ cur ≠ []
          · rw [if_pos hob]
            by_cases how : 0 < min (pySplitWs cur).length (ov / 5)
            · rw [if_pos how]
              rw [pySplitWs_append_cons_ws _ ' ' _ (by simp [pyIsSpace])]
              exact List.mem_append_right _ hts2
            · rw [if_neg how]
              exact hts2
          · rw [if_neg hob]
            exact hts2
        · exact Or.inr (Or.inr ⟨s2, hmem, hts2⟩)
    · rw [if_neg hover]
      apply ih
      rcases h with ⟨p, hp, htp⟩ | hcur | ⟨s2, hs2, hts2⟩
      · exact Or.inl ⟨p, hp, htp⟩
      · refine Or.inr (Or.inl ?_)
        have hcurne : cur ≠ [] := by
          intro hnil
          rw [hnil] at hcur
          simp [pySplitWs, pySplitWsAux] at hcur
        rw [if_neg hcurne, pySplitWs_append_cons_ws _ ' ' _ (by simp [pyIsSpace])]
        exact List.mem_append_left _ hcur
      · rcases List.mem_cons.mp hs2 with rfl | hmem
        · refine Or.inr (Or.inl ?_)
          split
          · exact hts2
          · rw [pySplitWs_append_cons_ws _ ' ' _ (by simp [pyIsSpace])]
            exact List.mem_append_right _ hts2
        · exact Or.inr (Or.inr ⟨s2, hmem, hts2⟩)

/-- `_split_with_overlap` never loses a token. -/
theorem splitWithOverlap_covers (text : List Char) (cs ov : ℕ) :
    TokCover (splitWithOverlap text cs ov) text := by
  rw [splitWithOverlap]
  split
  · exact tokCover_single text
  · intro t ht
    have h2 : t ∈ (sentSplit text).flatMap pySplitWs := by
      rw [sentSplit_tokens]
      exact ht
    rcases List.mem_flatMap.mp h2 with ⟨s, hs, hts⟩
    exact swoGo_covers cs ov (sentSplit text) [] [] t (Or.inr (Or.inr ⟨s, hs, hts⟩))

theorem pySplitWs_append_nl2 (a b : List Char) :
    pySplitWs (a ++ '\n' :: '\n' :: b) = pySplitWs a ++ pySplitWs b := by
  have h := pySplitWs_append_sep a ['\n', '\n'] b (by simp)
    (by intro x hx
        simp at hx
        subst hx
        simp [pyIsSpace])
  simpa using h

theorem slsGo_covers (cs ov : ℕ) :
    ∀ (paragraphs subsections : List (List Char)) (cur t : List Char),
      ((∃ p ∈ subsections, t ∈ pySplitWs p) ∨ t ∈ pySplitWs cur ∨
        ∃ p ∈ paragraphs, t ∈ pySplitWs p) →
      ∃ ch ∈ slsGo cs ov subsections cur paragraphs, t ∈ pySplitWs ch := by
  intro paragraphs
  induction paragraphs with
  | nil =>
    intro subs cur t h
    rcases h with ⟨p, hp, htp⟩ | hcur | ⟨p, hp, _⟩
    · refine ⟨p, ?_, htp⟩
      rw [slsGo]
      split
      · exact hp
      · exact List.mem_append_left _ hp
    · have hcurne : cur ≠ [] := by
        intro hnil
        rw [hnil] at hcur
        simp [pySplitWs, pySplitWsAux] at hcur
      refine ⟨cur, ?_, hcur⟩
      rw [slsGo, if_neg hcurne]
      exact List.mem_append_right _ (List.mem_singleton.mpr rfl)
    · cases hp
  | cons p rest ih =>
    intro subs cur t h
    rw [slsGo]
    by_cases hover : cs < cur.length + p.length
    · rw [if_pos hover]
      by_cases hp2 : cs < p.length
      · rw [if_pos hp2]
        apply ih
        rcases h with ⟨q, hq, htq⟩ | hcur | ⟨q, hq, htq⟩
        · refine Or.inl ⟨q, ?_, htq⟩
          refine List.mem_append_left _ ?_
          split
          · exact hq
          · exact List.mem_append_left _ hq
        · have hcurne : cur ≠ [] := by
            intro hnil
            rw [hnil] at hcur
            simp [pySplitWs, pySplitWsAux] at hcur
          refine Or.inl ⟨cur, ?_, hcur⟩
          refine List.mem_append_left _ ?_
          rw [if_neg hcurne]
          exact List.mem_append_right _ (List.mem_singleton.mpr rfl)
        · rcases List.mem_cons.mp hq with rfl | hmem
          · rcases splitWithOverlap_covers q cs ov t htq with ⟨ch, hch, htch⟩
            exact Or.inl ⟨ch, List.mem_append_right _ hch, htch⟩
          · exact Or.inr (Or.inr ⟨q, hmem, htq⟩)
      · rw [if_neg hp2]
        apply ih
        rcases h with ⟨q, hq, htq⟩ | hcur | ⟨q, hq, htq⟩
        · refine Or.inl ⟨q, ?_, htq⟩
          split
          · exact hq
          · exact List.mem_append_left _ hq
        · have hcurne : cur ≠ [] := by
            intro hnil
            rw [hnil] at hcur
            simp [pySplitWs, pySplitWsAux] at hcur
          refine Or.inl ⟨cur, ?_, hcur⟩
          rw [if_neg hcurne]
          exact List.mem_append_right _ (List.mem_singleton.mpr rfl)
        · rcases List.mem_cons.mp hq with rfl | hmem
          · exact Or.inr (Or.inl htq)
          · exact Or.inr (Or.inr ⟨q, hmem, htq⟩)
    · rw [if_neg hover]
      apply ih
      rcases h with ⟨q, hq, htq⟩ | hcur | ⟨q, hq, htq⟩
      · exact Or.inl ⟨q, hq, htq⟩
      · refine Or.inr (Or.inl ?_)
        have hcurne : cur ≠ [] := by
          intro hnil
          rw [hnil] at hcur
          simp [pySplitWs, pySplitWsAux] at hcur
        rw [if_neg hcurne, pySplitWs_append_nl2]
        exact List.mem_append_left _ hcur
      · rcases List.mem_cons.mp hq with rfl | hmem
        · refine Or.inr (Or.inl ?_)
          split
          · exact htq
          · rw [pySplitWs_append_nl2]
            exact List.mem_append_right _ htq
        · exact Or.inr (Or.inr ⟨q, hmem, htq⟩)

/-- `_split_long_section` never loses a token. -/
theorem splitLongSection_covers (cs ov : ℕ) (sec : List Char) :
    TokCover (splitLongSection cs ov sec) sec := by
  rw [splitLongSection]
  split
  · intro t ht
    have h2 : t ∈ (splitParagraphs sec).flatMap pySplitWs := by
      rw [splitParagraphs_tokens]
      exact ht
    rcases List.mem_flatMap.mp h2 with ⟨p, hp, htp⟩
    exact slsGo_covers cs ov (splitParagraphs sec) [] [] t (Or.inr (Or.inr ⟨p, hp, htp⟩))
  · exact splitWithOverlap_covers sec cs ov

theorem paraCombine_covers (cs : ℕ) :
    ∀ (paragraphs sections : List (List Char)) (cur t : List Char),
      ((∃ p ∈ sections, t ∈ pySplitWs p) ∨ t ∈ pySplitWs cur ∨
        ∃ p ∈ paragraphs, t ∈ pySplitWs p) →
      ∃ sec ∈ paraCombine cs sections cur paragraphs, t ∈ pySplitWs sec := by
  intro paragraphs
  induction paragraphs with
  | nil =>
    intro sections cur t h
    rcases h with ⟨p, hp, htp⟩ | hcur | ⟨p, hp, _⟩
    · refine ⟨p, ?_, htp⟩
      rw [paraCombine]
      split
      · exact hp
      · exact List.mem_append_left _ hp
    · have hcurne : cur ≠ [] := by
        intro hnil
        rw [hnil] at hcur
        simp [pySplitWs, pySplitWsAux] at hcur
      refine ⟨cur, ?_, hcur⟩
      rw [paraCombine, if_neg hcurne]
      exact List.mem_append_right _ (List.mem_singleton.mpr rfl)
    · cases hp
  | cons p rest ih =>
    intro sections cur t h
    rw [paraCombine]
    by_cases hover : cs < cur.length + p.length
    · rw [if_pos hover]
      apply ih
      rcases h with ⟨q, hq, htq⟩ | hcur | ⟨q, hq, htq⟩
      · refine Or.inl ⟨q, ?_, htq⟩
        split
        · exact hq
        · exact List.mem_append_left _ hq
      · have hcurne : cur ≠ [] := by
          intro hnil
          rw [hnil] at hcur
          simp [pySplitWs, pySplitWsAux] at hcur
        refine Or.inl ⟨cur, ?_, hcur⟩
        rw [if_neg hcurne]
        exact List.mem_append_right _ (List.mem_singleton.mpr rfl)
      · rcases List.mem_cons.mp hq with rfl | hmem
        · exact Or.inr (Or.inl htq)
        · exact Or.inr (Or.inr ⟨q, hmem, htq⟩)
    · rw [if_neg hover]
      apply ih
      rcases h with ⟨q, hq, htq⟩ | hcur | ⟨q, hq, htq⟩
      · exact Or.inl ⟨q, hq, htq⟩
      · refine Or.inr (Or.inl ?_)
        have hcurne : cur ≠ [] := by
          intro hnil
          rw [hnil] at hcur
          simp [pySplitWs, pySplitWsAux] at hcur
        rw [if_neg hcurne, pySplitWs_append_nl2]
        exact List.mem_append_left _ hcur
      · rcases List.mem_cons.mp hq with rfl | hmem
        · refine Or.inr (Or.inl ?_)
          split
          · exact htq
          · rw [pySplitWs_append_nl2]
            exact List.mem_append_right _ htq
        · exact Or.inr (Or.inr ⟨q, hmem, htq⟩)

/-! ## Heading matches: positions and the slice decomposition -/

theorem headingScan_mem (cs : List Char) (i : ℕ) :
    ∀ j ∈ headingScan cs i, i ≤ j ∧ j < cs.length := by
  induction i using headingScan.induct cs with
  | case1 x hx =>
    intro j hj
    rw [headingScan, dif_pos hx] at hj
    cases hj
  | case2 x hx k hk ih =>
    intro j hj
    rw [headingScan, dif_neg hx, hk] at hj
    rcases List.mem_cons.mp hj with rfl | hmem
    · exact ⟨le_rfl, by omega⟩
    · have h2 := ih j hmem
      constructor
      · omega
      · exact h2.2
  | case3 x hx hk ih =>
    intro j hj
    rw [headingScan, dif_neg hx, hk] at hj
    have h2 := ih j hj
    exact ⟨by omega, h2.2⟩

theorem headingScan_chain (cs : List Char) (i : ℕ) :
    List.Chain' (· < ·) (headingScan cs i) := by
  induction i using headingScan.induct cs with
  | case1 x hx =>
    rw [headingScan, dif_pos hx]
    simp
  | case2 x hx k hk ih =>
    rw [headingScan, dif_neg hx, hk]
    refine List.chain'_cons'.mpr ⟨?_, ih⟩
    intro y hy
    have h2 := headingScan_mem cs ((x + 1) ⊔ k) y (List.mem_of_mem_head? hy)
    have h3 : x + 1 ≤ (x + 1) ⊔ k := le_max_left _ _
    omega
  | case3 x hx hk ih =>
    rw [headingScan, dif_neg hx, hk]
    exact ih

theorem tryHeadingAt_nl (cs : List Char) (x e : ℕ) (h : tryHeadingAt cs x = some e) :
    x = 0 ∨ (cs.drop x).head? = some '\n' := by
  by_cases hx : x = 0
  · exact Or.inl hx
  · right
    rw [tryHeadingAt, if_neg hx] at h
    by_cases hhead : (cs.drop x).head? = some '\n'
    · exact hhead
    · rw [if_neg hhead] at h
      cases h

theorem headingScan_nl (cs : List Char) (i : ℕ) :
    ∀ j ∈ headingScan cs i, j = 0 ∨ (cs.drop j).head? = some '\n' := by
  induction i using headingScan.induct cs with
  | case1 x hx =>
    intro j hj
    rw [headingScan, dif_pos hx] at hj
    cases hj
  | case2 x hx k hk ih =>
    intro j hj
    rw [headingScan, dif_neg hx, hk] at hj
    rcases List.mem_cons.mp hj with rfl | hmem
    · exact tryHeadingAt_nl cs j k hk
    · exact ih j hmem
  | case3 x hx hk ih =>
    intro j hj
    rw [headingScan, dif_neg hx, hk] at hj
    exact ih j hj

/-- Splitting tokens at a position whose character is '\n'. -/
theorem pySplitWs_split_at_nl (cs : List Char) (n : ℕ)
    (h : (cs.drop n).head? = some '\n') :
    pySplitWs cs = pySplitWs (cs.take n) ++ pySplitWs (cs.drop n) := by
  cases hd : cs.drop n with
  | nil => rw [hd] at h; cases h
  | cons c b =>
    rw [hd] at h
    have hc : c = '\n' := by
      simp at h
      exact h
    subst hc
    conv_lhs => rw [← List.take_append_drop n cs, hd]
    rw [pySplitWs_append_cons_ws _ '\n' _ (by simp [pyIsSpace]),
      pySplitWs_cons_ws '\n' b (by simp [pyIsSpace])]

/-- The heading slices carry exactly the tokens of the text from the first
start onward. -/
theorem sliceSecs_tokens (cs : List Char) :
    ∀ (rest : List ℕ) (s : ℕ),
      List.Chain' (· < ·) (s :: rest) →
      (∀ x ∈ s :: rest, x < cs.length) →
      (∀ x ∈ rest, (cs.drop x).head? = some '\n') →
      (sliceSecs cs (s :: rest)).flatMap pySplitWs = pySplitWs (cs.drop s) := by
  intro rest
  induction rest with
  | nil =>
    intro s _ hlt _
    have hslice : (cs.drop s).take (cs.length - s) = cs.drop s := by
      apply List.take_of_length_le
      simp
    rw [sliceSecs]
    simp only [List.head?_nil]
    rw [hslice]
    by_cases hsec : pyStrip (cs.drop s) = []
    · rw [if_pos hsec]
      have h2 : pySplitWs (cs.drop s) = [] := by
        rw [← pySplitWs_pyStrip, hsec]
        rfl
      rw [h2]
      rfl
    · rw [if_neg hsec]
      simp [pySplitWs_pyStrip, sliceSecs]
  | cons s2 rest2 ih =>
    intro s hchain hlt hnl
    have hs2 : s < s2 := (List.chain'_cons.mp hchain).1
    have hchain2 : List.Chain' (· < ·) (s2 :: rest2) := (List.chain'_cons.mp hchain).2
    have hlt2 : ∀ x ∈ s2 :: rest2, x < cs.length := fun x hx =>
      hlt x (List.mem_cons_of_mem s hx)
    have hnl2 : ∀ x ∈ rest2, (cs.drop x).head? = some '\n' := fun x hx =>
      hnl x (List.mem_cons_of_mem s2 hx)
    have hih := ih s2 hchain2 hlt2 hnl2
    have hnlhead : (cs.drop s2).head? = some '\n' := hnl s2 (List.mem_cons_self s2 rest2)
    have hdecomp : pySplitWs (cs.drop s) =
        pySplitWs ((cs.drop s).take (s2 - s)) ++ pySplitWs (cs.drop s2) := by
      have h3 : (cs.drop s).drop (s2 - s) = cs.drop s2 := by
        rw [List.drop_drop]
        congr 1
        omega
      have h4 : ((cs.drop s).drop (s2 - s)).head? = some '\n' := by
        rw [h3]
        exact hnlhead
      rw [← h3, ← pySplitWs_split_at_nl (cs.drop s) (s2 - s) h4]
    rw [sliceSecs]
    simp only [List.head?_cons]
    by_cases hsec : pyStrip ((cs.drop s).take (s2 - s)) = []
    · rw [if_pos hsec, hih, hdecomp]
      have h5 : pySplitWs ((cs.drop s).take (s2 - s)) = [] := by
        rw [← pySplitWs_pyStrip, hsec]
        rfl
      rw [h5]
      rfl
    · rw [if_neg hsec]
      rw [List.flatMap_cons, hih, hdecomp, pySplitWs_pyStrip]

/-- `_extract_sections` never loses a token. -/
theorem extractSections_covers (cfg : ProcessorConfig) (text : List Char) :
    TokCover (extractSections cfg text) text := by
  rw [extractSections]
  by_cases hp : cfg.preserveSections
  · rw [if_neg (by simp [hp])]
    have hsec : TokCover
        (match headingStarts text with
          | [] => paraCombine cfg.chunkSize [] [] (splitParagraphs text)
          | s0 :: rest =>
            let secs := sliceSecs text (s0 :: rest)
            if 0 < s0 then
              let first := pyStrip (text.take s0)
              if first = [] then secs else first :: secs
            else secs) text := by
      cases hh : headingStarts text with
      | nil =>
        intro t ht
        have h2 : t ∈ (splitParagraphs text).flatMap pySplitWs := by
          rw [splitParagraphs_tokens]
          exact ht
        rcases List.mem_flatMap.mp h2 with ⟨p, hpmem, htp⟩
        exact paraCombine_covers cfg.chunkSize (splitParagraphs text) [] [] t
          (Or.inr (Or.inr ⟨p, hpmem, htp⟩))
      | cons s0 rest =>
        have hmem := headingScan_mem text 0
        have hchain := headingScan_chain text 0
        have hnl := headingScan_nl text 0
        rw [headingStarts] at hh
        rw [hh] at hmem hchain hnl
        have hlt : ∀ x ∈ s0 :: rest, x < text.length := fun x hx => (hmem x hx).2
        have htailnl : ∀ x ∈ rest, (text.drop x).head? = some '\n' := by
          intro x hx
          have hx0 : s0 < x := by
            have hpair := List.chain'_iff_pairwise.mp hchain
            exact (List.rel_of_pairwise_cons hpair) hx
          rcases hnl x (List.mem_cons_of_mem s0 hx) with rfl | h2
          · omega
          · exact h2
        have hslices := sliceSecs_tokens text rest s0 hchain hlt htailnl
        have hcover_slices : TokCover (sliceSecs text (s0 :: rest)) (text.drop s0) :=
          tokCover_of_flatMap_eq _ _ hslices
        intro t ht
        by_cases hs0 : 0 < s0
        · have hnl0 : (text.drop s0).head? = some '\n' := by
            rcases hnl s0 (List.mem_cons_self s0 rest) with h2 | h2
            · omega
            · exact h2
          rw [pySplitWs_split_at_nl text s0 hnl0] at ht
          simp only [if_pos hs0]
          rcases List.mem_append.mp ht with hpre | hpost
          · by_cases hfirst : pyStrip (text.take s0) = []
            · have h3 : pySplitWs (text.take s0) = [] := by
                rw [← pySplitWs_pyStrip, hfirst]
                rfl
              rw [h3] at hpre
              cases hpre
            · rw [if_neg hfirst]
              refine ⟨pyStrip (text.take s0), List.mem_cons_self _ _, ?_⟩
              rw [pySplitWs_pyStrip]
              exact hpre
          · rcases hcover_slices t hpost with ⟨p, hpmem, htp⟩
            by_cases hfirst : pyStrip (text.take s0) = []
            · rw [if_pos hfirst]
              exact ⟨p, hpmem, htp⟩
            · rw [if_neg hfirst]
              exact ⟨p, List.mem_cons_of_mem _ hpmem, htp⟩
        · have hs00 : s0 = 0 := by omega
          simp only [if_neg hs0]
          subst hs00
          rcases hcover_slices t (by simpa using ht) with ⟨p, hpmem, htp⟩
          exact ⟨p, hpmem, htp⟩
    refine tokCover_flatMap _ _ _ hsec ?_
    intro p _
    by_cases hlong : cfg.chunkSize < p.length
    · rw [if_pos hlong]
      exact splitLongSection_covers _ _ p
    · rw [if_neg hlong]
      exact tokCover_single p
  · rw [if_pos (by simp [hp])]
    exact splitWithOverlap_covers text _ _

/-- The main loop of `chunk_document` never loses a token. -/
theorem emitContents_covers (cfg : ProcessorConfig) (sections : List (List Char))
    (text : List Char) (h : TokCover sections text) :
    TokCover (emitContents cfg sections) text := by
  refine tokCover_flatMap _ _ _ h ?_
  intro sec _
  by_cases hskip : pyStrip sec = []
  · rw [if_pos hskip]
    intro t ht
    have h2 : pySplitWs sec = [] := by
      rw [← pySplitWs_pyStrip, hskip]
      rfl
    rw [h2] at ht
    cases ht
  · rw [if_neg hskip]
    by_cases hlong : cfg.chunkSize < sec.length
    · rw [if_pos hlong]
      exact splitLongSection_covers _ _ sec
    · rw [if_neg hlong]
      exact tokCover_single sec

/-! ## Chunk assembly: indices, ids, totals -/

theorem chunkDocument_length {μ : Type} (cfg : ProcessorConfig) (doc : Document μ) :
    (chunkDocument cfg doc).length =
      (emitContents cfg (extractSections cfg doc.content)).length := by
  rw [chunkDocument]
  simp [List.enum_length]

theorem chunkDocument_getElem {μ : Type} (cfg : ProcessorConfig) (doc : Document μ)
    (i : ℕ) (h : i < (chunkDocument cfg doc).length)
    (h2 : i < (emitContents cfg (extractSections cfg doc.content)).length) :
    (chunkDocument cfg doc).get ⟨i, h⟩ =
      { id := doc.id ++ "_" ++ toString i, documentId := doc.id,
        content := (emitContents cfg (extractSections cfg doc.content)).get ⟨i, h2⟩,
        metadata := doc.metadata, chunkIndex := i,
        totalChunks := (emitContents cfg (extractSections cfg doc.content)).length } := by
  simp [chunkDocument, List.get_eq_getElem, List.getElem_map, List.getElem_enum]

theorem chunkDocument_content_mem {μ : Type} (cfg : ProcessorConfig) (doc : Document μ)
    (c : List Char) (hc : c ∈ emitContents cfg (extractSections cfg doc.content)) :
    ∃ ch ∈ chunkDocument cfg doc, ch.content = c := by
  rcases List.mem_iff_get.mp hc with ⟨⟨i, hi⟩, hget⟩
  have h : i < (chunkDocument cfg doc).length := by
    rw [chunkDocument_length]
    exact hi
  refine ⟨(chunkDocument cfg doc).get ⟨i, h⟩, List.get_mem _ _ h, ?_⟩
  rw [chunkDocument_getElem cfg doc i h hi]
  exact hget

/-- C6: the chunk sequence of a document has `chunk_index` values exactly
`0, 1, ..., N-1` in emission order; every chunk's `total_chunks` equals the
sequence length `N` (identical across chunks, written after the loop); and
every chunk's `id` is the string `"{document.id}_{chunk_index}"`. -/
theorem c6_indexing {μ : Type} (cfg : ProcessorConfig) (doc : Document μ) :
    (chunkDocument cfg doc).map DocumentChunk.chunkIndex =
      List.range (chunkDocument cfg doc).length ∧
    ∀ i (h : i < (chunkDocument cfg doc).length),
      ((chunkDocument cfg doc).get ⟨i, h⟩).chunkIndex = i ∧
      ((chunkDocument cfg doc).get ⟨i, h⟩).totalChunks = (chunkDocument cfg doc).length ∧
      ((chunkDocument cfg doc).get ⟨i, h⟩).id = doc.id ++ "_" ++ toString i := by
  constructor
  · have h2 : ∀ (l : List (List Char)) (n : ℕ), l.enum.map
        (DocumentChunk.chunkIndex ∘ fun p =>
          ({ id := doc.id ++ "_" ++ toString p.1, documentId := doc.id,
             content := p.2, metadata := doc.metadata,
             chunkIndex := p.1, totalChunks := n } : DocumentChunk μ)) =
        l.enum.map Prod.fst := by
      intro l n
      exact List.map_congr_left fun p _ => rfl
    rw [chunkDocument_length cfg doc, chunkDocument]
    simp only [List.map_map]
    rw [h2, List.enum_map_fst]
  · intro i h
    have h2 : i < (emitContents cfg (extractSections cfg doc.content)).length := by
      rw [← chunkDocument_length]
      exact h
    rw [chunkDocument_getElem cfg doc i h h2]
    exact ⟨rfl, (chunkDocument_length cfg doc).symm, rfl⟩

theorem c6_witness :
    ∃ h : 0 < (chunkDocument ({} : ProcessorConfig)
        (⟨"d", "ab".data, ()⟩ : Document Unit)).length,
      ((chunkDocument {} (⟨"d", "ab".data, ()⟩ : Document Unit)).get ⟨0, h⟩).chunkIndex = 0 ∧
      ((chunkDocument {} (⟨"d", "ab".data, ()⟩ : Document Unit)).get ⟨0, h⟩).totalChunks =
        (chunkDocument {} (⟨"d", "ab".data, ()⟩ : Document Unit)).length ∧
      ((chunkDocument {} (⟨"d", "ab".data, ()⟩ : Document Unit)).get ⟨0, h⟩).id =
        "d" ++ "_" ++ toString 0 := by
  have hlen : (chunkDocument ({} : ProcessorConfig)
      (⟨"d", "ab".data, ()⟩ : Document Unit)).length = 1 := by
    simp [chunkDocument, emitContents, extractSections, headingStarts, headingScan,
      tryHeadingAt, tryHeadingEnd, matchMarkerEnd, splitParagraphs, paraScan,
      lastIdxOfNl, paraCombine, pyStrip, pyIsSpace, List.enum_length]
  have h : 0 < (chunkDocument ({} : ProcessorConfig)
      (⟨"d", "ab".data, ()⟩ : Document Unit)).length := by omega
  exact ⟨h, (c6_indexing {} ⟨"d", "ab".data, ()⟩).2 0 h⟩

/-- C7: chunking never silently drops text — every whitespace-delimited
token of the document's content occurs as a token of (and hence as a
contiguous substring of) at least one chunk's content, regardless of
headings, paragraph structure, or oversize sections. -/
theorem c7_token_coverage {μ : Type} (cfg : ProcessorConfig) (doc : Document μ) :
    ∀ t ∈ pySplitWs doc.content,
      ∃ ch ∈ chunkDocument cfg doc, t ∈ pySplitWs ch.content ∧
        ∃ pre post, ch.content = pre ++ t ++ post := by
  intro t ht
  have hcov := emitContents_covers cfg (extractSections cfg doc.content) doc.content
    (extractSections_covers cfg doc.content)
  rcases hcov t ht with ⟨c, hcmem, htc⟩
  rcases chunkDocument_content_mem cfg doc c hcmem with ⟨ch, hch, hcontent⟩
  refine ⟨ch, hch, ?_, ?_⟩
  · rw [hcontent]
    exact htc
  · rw [hcontent]
    exact pySplitWs_substring t c htc

theorem c7_witness :
    "hi".data ∈ pySplitWs "hi there".data ∧
    ∃ ch ∈ chunkDocument ({} : ProcessorConfig) (⟨"d", "hi there".data, ()⟩ : Document Unit),
      "hi".data ∈ pySplitWs ch.content ∧ ∃ pre post, ch.content = pre ++ "hi".data ++ post := by
  have hmem : "hi".data ∈ pySplitWs "hi there".data := by decide
  exact ⟨hmem, c7_token_coverage {} ⟨"d", "hi there".data, ()⟩ "hi".data hmem⟩

/-! ## Chunk size bounds -/

theorem swoGo_length_le (cs : ℕ) (sentences : List (List Char))
    (hs : ∀ s ∈ sentences, s.length ≤ cs) :
    ∀ (chunks : List (List Char)) (cur : List Char),
      (∀ c ∈ chunks, c.length ≤ cs + 1) → cur.length ≤ cs + 1 →
      ∀ ch ∈ swoGo cs 0 chunks cur sentences, ch.length ≤ cs + 1 := by
  induction sentences with
  | nil =>
    intro chunks cur hchunks hcur ch hch
    rw [swoGo] at hch
    split at hch
    · exact hchunks ch hch
    · rcases List.mem_append.mp hch with h2 | h2
      · exact hchunks ch h2
      · rw [List.mem_singleton.mp h2]
        exact hcur
  | cons s rest ih =>
    intro chunks cur hchunks hcur ch hch
    have hss : s.length ≤ cs := hs s (List.mem_cons_self s rest)
    have hrest : ∀ x ∈ rest, x.length ≤ cs := fun x hx =>
      hs x (List.mem_cons_of_mem s hx)
    rw [swoGo] at hch
    by_cases hover : cs < cur.length + s.length
    · rw [if_pos hover] at hch
      have hfalse : ¬ (0 < 0 ∧ cur ≠ []) := by simp
      rw [if_neg hfalse] at hch
      refine ih hrest _ _ ?_ (by omega) ch hch
      intro c hc
      split at hc
      · exact hchunks c hc
      · rcases List.mem_append.mp hc with h2 | h2
        · exact hchunks c h2
        · rw [List.mem_singleton.mp h2]
          exact hcur
    · rw [if_neg hover] at hch
      refine ih hrest _ _ hchunks ?_ ch hch
      split
      · omega
      · simp only [List.length_append, List.length_cons]
        omega

/-- C1 counterexample: with `chunk_size = 10` and a document consisting of
a single 15-character "sentence" (no sentence boundary), `chunk_document`
emits one chunk of UTF-8 byte size 15 > 10: an over-long sentence is
carried whole, not split further. -/
theorem c1_counterexample :
    ¬ (∀ ch ∈ chunkDocument ({chunkSize := 10} : ProcessorConfig)
          (⟨"d", "aaaaaaaaaaaaaaa".data, ()⟩ : Document Unit),
        utf8Bytes ch.content ≤ ({chunkSize := 10} : ProcessorConfig).chunkSize) := by
  intro hall
  have heval : chunkDocument ({chunkSize := 10} : ProcessorConfig)
      (⟨"d", "aaaaaaaaaaaaaaa".data, ()⟩ : Document Unit) =
      [⟨"d" ++ "_" ++ toString 0, "d", "aaaaaaaaaaaaaaa".data, (), 0, 1⟩] := by
    simp [chunkDocument, emitContents, extractSections, headingStarts, headingScan,
      tryHeadingAt, tryHeadingEnd, matchMarkerEnd, splitParagraphs, paraScan,
      lastIdxOfNl, paraCombine, pyStrip, pyIsSpace, splitLongSection,
      splitWithOverlap, sentSplit, sentScan, swoGo, isSentEnd]
  have h2 := hall ⟨"d" ++ "_" ++ toString 0, "d", "aaaaaaaaaaaaaaa".data, (), 0, 1⟩
    (by rw [heval]; exact List.mem_singleton.mpr rfl)
  revert h2
  decide

/-- C1 amended: the size limit is measured in characters (Python `len`),
not UTF-8 bytes, and it is not universal — an over-long sentence is
emitted whole (see the counterexample), and the joins and overlap
carry-forward are not counted against the limit.  The bound that holds:
with `overlap = 0`, if every sentence of the text is at most `chunk_size`
characters, every chunk of `_split_with_overlap(text, chunk_size, 0)` has
at most `chunk_size + 1` characters (the `+ 1` is the joining space the
accumulation check does not count). -/
theorem c1_amended (text : List Char) (cs : ℕ)
    (hs : ∀ s ∈ sentSplit text, s.length ≤ cs) :
    ∀ ch ∈ splitWithOverlap text cs 0, ch.length ≤ cs + 1 := by
  rw [splitWithOverlap]
  split
  · rename_i hfit
    intro ch hch
    rw [List.mem_singleton.mp hch]
    omega
  · exact swoGo_length_le cs (sentSplit text) hs [] []
      (by intro c hc; cases hc) (by simp)

theorem c1_amended_witness :
    (∀ s ∈ sentSplit "One two. Four six.".data, s.length ≤ 10) ∧
    ∀ ch ∈ splitWithOverlap "One two. Four six.".data 10 0, ch.length ≤ 10 + 1 := by
  have hs : ∀ s ∈ sentSplit "One two. Four six.".data, s.length ≤ 10 := by
    have heval : sentSplit "One two. Four six.".data =
        ["One two.".data, "Four six.".data] := by
      simp [sentSplit, sentScan, isSentEnd, pyIsSpace]
    rw [heval]
    decide
  exact ⟨hs, c1_amended "One two. Four six.".data 10 hs⟩

/-! ## Whitespace-only inputs produce no chunks -/

theorem pyStrip_eq_nil_iff (l : List Char) : pyStrip l = [] ↔ AllWs l := by
  constructor
  · intro h
    rw [pyStrip] at h
    have h2 : (l.dropWhile pyIsSpace).reverse.dropWhile pyIsSpace = [] := by
      have := congrArg List.reverse h
      simpa using this
    have h3 : ∀ x ∈ (l.dropWhile pyIsSpace).reverse, pyIsSpace x :=
      List.dropWhile_eq_nil_iff.mp h2
    intro c hc
    conv at hc => rw [← List.takeWhile_append_dropWhile pyIsSpace l]
    rcases List.mem_append.mp hc with h4 | h4
    · exact List.mem_takeWhile_imp h4
    · exact h3 c (List.mem_reverse.mpr h4)
  · intro h
    have h2 : l.dropWhile pyIsSpace = [] := List.dropWhile_eq_nil_iff.mpr h
    rw [pyStrip, h2]
    rfl

theorem paraScan_allWs :
    ∀ (acc cs : List Char), AllWs acc → AllWs cs →
      ∀ p ∈ paraScan acc cs, AllWs p := by
  intro acc cs
  induction acc, cs using paraScan.induct with
  | case1 acc =>
    intro hacc _ p hp
    rw [paraScan] at hp
    rw [List.mem_singleton.mp hp]
    intro c hc
    exact hacc c (List.mem_reverse.mp hc)
  | case2 acc rest k hk ih =>
    intro hacc hcs p hp
    have hrest : AllWs rest := fun c hc => hcs c (List.mem_cons_of_mem _ hc)
    have hstep : paraScan acc ('\n' :: rest) =
        acc.reverse :: paraScan [] (rest.drop (k + 1)) := by
      rw [paraScan]
      simp [hk]
    rw [hstep] at hp
    rcases List.mem_cons.mp hp with rfl | hmem
    · intro c hc
      exact hacc c (List.mem_reverse.mp hc)
    · exact ih (by intro c hc; cases hc)
        (fun c hc => hrest c (List.drop_subset _ _ hc)) p hmem
  | case3 acc rest hk ih =>
    intro hacc hcs p hp
    have hstep : paraScan acc ('\n' :: rest) = paraScan ('\n' :: acc) rest := by
      rw [paraScan]
      simp [hk]
    rw [hstep] at hp
    refine ih ?_ (fun c hc => hcs c (List.mem_cons_of_mem _ hc)) p hp
    intro c hc
    rcases List.mem_cons.mp hc with rfl | h2
    · simp [pyIsSpace]
    · exact hacc c h2
  | case4 acc c0 rest hc0 ih =>
    intro hacc hcs p hp
    have hstep : paraScan acc (c0 :: rest) = paraScan (c0 :: acc) rest := by
      rw [paraScan]
      simp [hc0]
    rw [hstep] at hp
    refine ih ?_ (fun c hc => hcs c (List.mem_cons_of_mem _ hc)) p hp
    intro c hc
    rcases List.mem_cons.mp hc with heq | h2
    · rw [heq]
      exact hcs c0 (List.mem_cons_self c0 rest)
    · exact hacc c h2

theorem sentScan_allWs :
    ∀ (acc : List Char) (prev : Option Char) (cs : List Char), AllWs acc → AllWs cs →
      ∀ p ∈ sentScan acc prev cs, AllWs p := by
  intro acc prev cs
  induction acc, prev, cs using sentScan.induct with
  | case1 acc prev =>
    intro hacc _ p hp
    rw [sentScan] at hp
    rw [List.mem_singleton.mp hp]
    intro c hc
    exact hacc c (List.mem_reverse.mp hc)
  | case2 acc prev c0 rest hc0 ih =>
    intro hacc hcs p hp
    have hrest : AllWs rest := fun c hc => hcs c (List.mem_cons_of_mem _ hc)
    have hstep : sentScan acc prev (c0 :: rest) =
        acc.reverse :: sentScan [] none (rest.dropWhile pyIsSpace) := by
      rw [sentScan]
      simp [hc0]
    rw [hstep] at hp
    rcases List.mem_cons.mp hp with rfl | hmem
    · intro c hc
      exact hacc c (List.mem_reverse.mp hc)
    · exact ih (by intro c hc; cases hc)
        (fun c hc => hrest c (List.dropWhile_subset _ hc)) p hmem
  | case3 acc prev c0 rest hc0 ih =>
    intro hacc hcs p hp
    have hstep : sentScan acc prev (c0 :: rest) = sentScan (c0 :: acc) (some c0) rest := by
      rw [sentScan]
      simp [hc0]
    rw [hstep] at hp
    refine ih ?_ (fun c hc => hcs c (List.mem_cons_of_mem _ hc)) p hp
    intro c hc
    rcases List.mem_cons.mp hc with heq | h2
    · rw [heq]
      exact hcs c0 (List.mem_cons_self c0 rest)
    · exact hacc c h2

theorem allWs_append (a b : List Char) (ha : AllWs a) (hb : AllWs b) :
    AllWs (a ++ b) := by
  intro c hc
  rcases List.mem_append.mp hc with h | h
  · exact ha c h
  · exact hb c h

theorem swoGo_allWs (cs ov : ℕ) :
    ∀ (sentences chunks : List (List Char)) (cur : List Char),
      (∀ p ∈ chunks, AllWs p) → AllWs cur → (∀ s ∈ sentences, AllWs s) →
      ∀ ch ∈ swoGo cs ov chunks cur sentences, AllWs ch := by
  intro sentences
  induction sentences with
  | nil =>
    intro chunks cur hchunks hcur _ ch hch
    rw [swoGo] at hch
    split at hch
    · exact hchunks ch hch
    · rcases List.mem_append.mp hch with h | h
      · exact hchunks ch h
      · rw [List.mem_singleton.mp h]
        exact hcur
  | cons s rest ih =>
    intro chunks cur hchunks hcur hsent ch hch
    have hss : AllWs s := hsent s (List.mem_cons_self s rest)
    have hrest : ∀ x ∈ rest, AllWs x := fun x hx => hsent x (List.mem_cons_of_mem s hx)
    rw [swoGo] at hch
    by_cases hover : cs < cur.length + s.length
    · rw [if_pos hover] at hch
      have hchunksNew : ∀ p ∈ (if cur = [] then chunks else chunks ++ [cur]), AllWs p := by
        intro p hp
        split at hp
        · exact hchunks p hp
        · rcases List.mem_append.mp hp with h | h
          · exact hchunks p h
          · rw [List.mem_singleton.mp h]
            exact hcur
      by_cases hob : 0 < ov ∧ cur ≠ []
      · rw [if_pos hob] at hch
        have hwords : pySplitWs cur = [] := pySplitWs_of_allWs cur hcur
        rw [hwords] at hch
        simp only [List.length_nil, Nat.zero_min, lt_irrefl, if_false] at hch
        exact ih _ _ hchunksNew hss hrest ch hch
      · rw [if_neg hob] at hch
        exact ih _ _ hchunksNew hss hrest ch hch
    · rw [if_neg hover] at hch
      refine ih _ _ hchunks ?_ hrest ch hch
      split
      · exact hss
      · refine allWs_append cur (' ' :: s) hcur ?_
        intro c hc
        rcases List.mem_cons.mp hc with rfl | h2
        · simp [pyIsSpace]
        · exact hss c h2

theorem splitWithOverlap_allWs (text : List Char) (cs ov : ℕ) (h : AllWs text) :
    ∀ ch ∈ splitWithOverlap text cs ov, AllWs ch := by
  rw [splitWithOverlap]
  split
  · intro ch hch
    rw [List.mem_singleton.mp hch]
    exact h
  · refine swoGo_allWs cs ov (sentSplit text) [] [] (by intro p hp; cases hp)
      (by intro c hc; cases hc) ?_
    exact sentScan_allWs [] none text (by intro c hc; cases hc) h

theorem allWs_append_nl2 (a b : List Char) (ha : AllWs a) (hb : AllWs b) :
    AllWs (a ++ '\n' :: '\n' :: b) := by
  refine allWs_append a _ ha ?_
  intro c hc
  rcases List.mem_cons.mp hc with heq | h2
  · rw [heq]; simp [pyIsSpace]
  · rcases List.mem_cons.mp h2 with heq | h3
    · rw [heq]; simp [pyIsSpace]
    · exact hb c h3

theorem slsGo_allWs (cs ov : ℕ) :
    ∀ (paragraphs subsections : List (List Char)) (cur : List Char),
      (∀ p ∈ subsections, AllWs p) → AllWs cur → (∀ p ∈ paragraphs, AllWs p) →
      ∀ ch ∈ slsGo cs ov subsections cur paragraphs, AllWs ch := by
  intro paragraphs
  induction paragraphs with
  | nil =>
    intro subs cur hsubs hcur _ ch hch
    rw [slsGo] at hch
    split at hch
    · exact hsubs ch hch
    · rcases List.mem_append.mp hch with h | h
      · exact hsubs ch h
      · rw [List.mem_singleton.mp h]
        exact hcur
  | cons p rest ih =>
    intro subs cur hsubs hcur hpars ch hch
    have hpp : AllWs p := hpars p (List.mem_cons_self p rest)
    have hrest : ∀ x ∈ rest, AllWs x := fun x hx => hpars x (List.mem_cons_of_mem p hx)
    have hsubs2 : ∀ q ∈ (if cur = [] then subs else subs ++ [cur]), AllWs q := by
      intro q hq
      split at hq
      · exact hsubs q hq
      · rcases List.mem_append.mp hq with h | h
        · exact hsubs q h
        · rw [List.mem_singleton.mp h]
          exact hcur
    rw [slsGo] at hch
    by_cases hover : cs < cur.length + p.length
    · rw [if_pos hover] at hch
      by_cases hp2 : cs < p.length
      · rw [if_pos hp2] at hch
        refine ih _ _ ?_ (by intro c hc; cases hc) hrest ch hch
        intro q hq
        rcases List.mem_append.mp hq with h | h
        · exact hsubs2 q h
        · exact splitWithOverlap_allWs p cs ov hpp q h
      · rw [if_neg hp2] at hch
        exact ih _ _ hsubs2 hpp hrest ch hch
    · rw [if_neg hover] at hch
      refine ih _ _ hsubs ?_ hrest ch hch
      split
      · exact hpp
      · exact allWs_append_nl2 cur p hcur hpp

theorem splitLongSection_allWs (cs ov : ℕ) (sec : List Char) (h : AllWs sec) :
    ∀ ch ∈ splitLongSection cs ov sec, AllWs ch := by
  rw [splitLongSection]
  split
  · exact slsGo_allWs cs ov (splitParagraphs sec) [] [] (by intro p hp; cases hp)
      (by intro c hc; cases hc)
      (paraScan_allWs [] sec (by intro c hc; cases hc) h)
  · exact splitWithOverlap_allWs sec cs ov h

theorem paraCombine_allWs (cs : ℕ) :
    ∀ (paragraphs sections : List (List Char)) (cur : List Char),
      (∀ p ∈ sections, AllWs p) → AllWs cur → (∀ p ∈ paragraphs, AllWs p) →
      ∀ sec ∈ paraCombine cs sections cur paragraphs, AllWs sec := by
  intro paragraphs
  induction paragraphs with
  | nil =>
    intro sections cur hsec hcur _ sec hsecmem
    rw [paraCombine] at hsecmem
    split at hsecmem
    · exact hsec sec hsecmem
    · rcases List.mem_append.mp hsecmem with h | h
      · exact hsec sec h
      · rw [List.mem_singleton.mp h]
        exact hcur
  | cons p rest ih =>
    intro sections cur hsec hcur hpars sec hsecmem
    have hpp : AllWs p := hpars p (List.mem_cons_self p rest)
    have hrest : ∀ x ∈ rest, AllWs x := fun x hx => hpars x (List.mem_cons_of_mem p hx)
    rw [paraCombine] at hsecmem
    by_cases hover : cs < cur.length + p.length
    · rw [if_pos hover] at hsecmem
      refine ih _ _ ?_ hpp hrest sec hsecmem
      intro q hq
      split at hq
      · exact hsec q hq
      · rcases List.mem_append.mp hq with h | h
        · exact hsec q h
        · rw [List.mem_singleton.mp h]
          exact hcur
    · rw [if_neg hover] at hsecmem
      refine ih _ _ hsec ?_ hrest sec hsecmem
      split
      · exact hpp
      · exact allWs_append_nl2 cur p hcur hpp

theorem pyStrip_subset (l : List Char) : pyStrip l ⊆ l := by
  intro c hc
  rw [pyStrip] at hc
  have h2 := List.mem_reverse.mp hc
  have h3 := List.dropWhile_subset _ h2
  have h4 := List.mem_reverse.mp h3
  exact List.dropWhile_subset _ h4

theorem sliceSecs_allWs (cs : List Char) (h : AllWs cs) :
    ∀ starts, ∀ sec ∈ sliceSecs cs starts, AllWs sec := by
  intro starts
  induction starts with
  | nil => intro sec hsec; cases hsec
  | cons s rest ih =>
    intro sec hsec
    rw [sliceSecs] at hsec
    split at hsec
    · exact ih sec hsec
    · rcases List.mem_cons.mp hsec with heq | h2
      · rw [heq]
        intro c hc
        have h3 := pyStrip_subset _ hc
        have h4 := List.take_subset _ _ h3
        exact h c (List.drop_subset _ _ h4)
      · exact ih sec h2

theorem extractSections_allWs (cfg : ProcessorConfig) (text : List Char)
    (h : AllWs text) : ∀ sec ∈ extractSections cfg text, AllWs sec := by
  rw [extractSections]
  split
  · exact splitWithOverlap_allWs text _ _ h
  · have hsections : ∀ sec ∈
        (match headingStarts text with
          | [] => paraCombine cfg.chunkSize [] [] (splitParagraphs text)
          | s0 :: rest =>
            let secs := sliceSecs text (s0 :: rest)
            if 0 < s0 then
              let first := pyStrip (text.take s0)
              if first = [] then secs else first :: secs
            else secs), AllWs sec := by
      cases hh : headingStarts text with
      | nil =>
        exact paraCombine_allWs cfg.chunkSize (splitParagraphs text) [] []
          (by intro p hp; cases hp) (by intro c hc; cases hc)
          (paraScan_allWs [] text (by intro c hc; cases hc) h)
      | cons s0 rest =>
        intro sec hsec
        simp only at hsec
        by_cases hs0 : 0 < s0
        · rw [if_pos hs0] at hsec
          by_cases hfirst : pyStrip (text.take s0) = []
          · rw [if_pos hfirst] at hsec
            exact sliceSecs_allWs text h _ sec hsec
          · rw [if_neg hfirst] at hsec
            rcases List.mem_cons.mp hsec with heq | h2
            · rw [heq]
              intro c hc
              exact h c (List.take_subset _ _ (pyStrip_subset _ hc))
            · exact sliceSecs_allWs text h _ sec h2
        · rw [if_neg hs0] at hsec
          exact sliceSecs_allWs text h _ sec hsec
    intro sec hsec
    rcases List.mem_flatMap.mp hsec with ⟨p, hp, hsecp⟩
    have hpws := hsections p hp
    by_cases hlong : cfg.chunkSize < p.length
    · rw [if_pos hlong] at hsecp
      exact splitLongSection_allWs _ _ p hpws sec hsecp
    · rw [if_neg hlong] at hsecp
      rw [List.mem_singleton.mp hsecp]
      exact hpws

/-- C9 counterexample: a document whose content `" hello "` fits under
`chunk_size` is returned as one chunk whose content is the *untrimmed*
input, not the input trimmed of surrounding whitespace. -/
theorem c9_counterexample :
    (chunkDocument ({} : ProcessorConfig) (⟨"d", " hello ".data, ()⟩ : Document Unit)).map
      DocumentChunk.content = [" hello ".data] ∧
    " hello ".data ≠ pyStrip " hello ".data := by
  constructor
  · simp [chunkDocument, emitContents, extractSections, headingStarts, headingScan,
      tryHeadingAt, tryHeadingEnd, matchMarkerEnd, splitParagraphs, paraScan,
      lastIdxOfNl, paraCombine, pyStrip, pyIsSpace]
  · decide

/-- C9 amended: empty or whitespace-only content yields the empty chunk
sequence (as claimed); content that fits under `chunk_size` yields exactly
one chunk whose content is the input *unchanged* (not trimmed), provided
the heading pattern does not match and the content has no blank-line
paragraph break (or `preserve_sections` is off) — with headings or
paragraph breaks the fitting input can produce several chunks. -/
theorem c9_amended {μ : Type} (cfg : ProcessorConfig) (doc : Document μ) :
    (AllWs doc.content → chunkDocument cfg doc = []) ∧
    (¬ AllWs doc.content → doc.content.length ≤ cfg.chunkSize →
      (cfg.preserveSections = false ∨
        (headingStarts doc.content = [] ∧ splitParagraphs doc.content = [doc.content])) →
      chunkDocument cfg doc =
        [⟨doc.id ++ "_" ++ toString 0, doc.id, doc.content, doc.metadata, 0, 1⟩]) := by
  constructor
  · intro hws
    have hsec := extractSections_allWs cfg doc.content hws
    have hemit : emitContents cfg (extractSections cfg doc.content) = [] := by
      rw [emitContents]
      refine List.flatMap_eq_nil_iff.mpr ?_
      intro sec hsecmem
      rw [if_pos ((pyStrip_eq_nil_iff sec).mpr (hsec sec hsecmem))]
    rw [chunkDocument, hemit]
    rfl
  · intro hnws hfit hshape
    have hne : doc.content ≠ [] := by
      intro hnil
      exact hnws (by rw [hnil]; intro c hc; cases hc)
    have hsections : extractSections cfg doc.content = [doc.content] := by
      rw [extractSections]
      rcases hshape with hpf | ⟨hh, hp⟩
      · rw [if_pos (by simp [hpf])]
        rw [splitWithOverlap, if_pos hfit]
      · by_cases hpv : cfg.preserveSections
        · rw [if_neg (by simp [hpv]), hh, hp]
          have hcomb : paraCombine cfg.chunkSize [] [] [doc.content] = [doc.content] := by
            rw [paraCombine, if_neg (by simp; omega)]
            rw [paraCombine, if_pos rfl, if_neg hne]
            rfl
          rw [hcomb]
          simp only [List.flatMap_cons, List.flatMap_nil]
          rw [if_neg (by omega)]
          rfl
        · rw [if_pos (by simp [hpv])]
          rw [splitWithOverlap, if_pos hfit]
    have hemit : emitContents cfg (extractSections cfg doc.content) = [doc.content] := by
      rw [hsections, emitContents]
      simp only [List.flatMap_cons, List.flatMap_nil]
      rw [if_neg (by
        intro hstrip
        exact hnws ((pyStrip_eq_nil_iff doc.content).mp hstrip))]
      rw [if_neg (by omega)]
      rfl
    rw [chunkDocument, hemit]
    rfl

theorem c9_witness :
    (¬ AllWs "hello world".data ∧ "hello world".data.length ≤ 1000 ∧
      headingStarts "hello world".data = [] ∧
      splitParagraphs "hello world".data = ["hello world".data]) ∧
    chunkDocument ({} : ProcessorConfig) (⟨"d", "hello world".data, ()⟩ : Document Unit) =
      [⟨"d" ++ "_" ++ toString 0, "d", "hello world".data, (), 0, 1⟩] := by
  have h1 : ¬ AllWs "hello world".data := by
    intro h
    have := h 'h' (by decide)
    simp [pyIsSpace] at this
  have h2 : ("hello world".data.length ≤ 1000) := by decide
  have h3 : headingStarts "hello world".data = [] := by
    simp [headingStarts, headingScan, tryHeadingAt, tryHeadingEnd, matchMarkerEnd]
  have h4 : splitParagraphs "hello world".data = ["hello world".data] := by
    simp [splitParagraphs, paraScan, lastIdxOfNl, pyIsSpace]
  exact ⟨⟨h1, h2, h3, h4⟩,
    (c9_amended {} ⟨"d", "hello world".data, ()⟩).2 h1 h2 (Or.inr ⟨h3, h4⟩)⟩
